import Mathlib

/-!
Shallow embedding of the image_sequence library (file image_sequence/__init__.py):
a filename-grammar parser, the ImageSequence state and its operations
(padding and padding-style setters, frame-list normalization, path rendering,
frame formatting, merge and disk discovery), together with theorems settling
the specification claims.

Strings are modelled as lists of characters (Str); paths, tokens and regex
groups are all Str values.  Machine-level details that the claims do not
touch (the version lookup, the configurable name pattern which every claim
leaves at its default, and OS errors) are outside the model; directory
listings are passed to the disk-discovery function explicitly.
-/

abbrev Str := List Char

def strL (s : String) : Str := s.data

/-- Value of a decimal-digit character, as in Python int parsing. -/
def dval (c : Char) : Nat := c.toNat - '0'.toNat

/-- Decimal value of a digit string, as Python int() on a nonnegative literal. -/
def numVal (s : Str) : Nat := s.foldl (fun a c => 10 * a + dval c) 0

/-- Decimal digits of a natural number, fuelled form. -/
def natDigitsF : Nat → Nat → Str
  | 0, _ => []
  | fu + 1, n => if n < 10 then [Nat.digitChar n] else natDigitsF fu (n / 10) ++ [Nat.digitChar (n % 10)]

/-- Decimal digits of a natural number, as Python str() on a nonnegative int. -/
def natDigits (n : Nat) : Str := natDigitsF (n + 1) n

/-- Python str() of an int, sign included. -/
def intStr (n : Int) : Str := if n < 0 then '-' :: natDigits n.natAbs else natDigits n.toNat

/-- Python int() of a possibly signed digit string. -/
def intVal (s : Str) : Int :=
  match s with
  | [] => (numVal [] : Int)
  | c :: ds => if c = '-' then -(numVal ds : Int) else (numVal (c :: ds) : Int)

/-- Core of Python str.replace for a nonempty pattern: scan left to right,
replacing every occurrence.  The fuel is an upper bound on the scanned length. -/
def pyRepCore (pat rep : Str) : Nat → Str → Str
  | 0, s => s
  | fu + 1, s =>
    match s with
    | [] => []
    | c :: cs =>
      if pat.isPrefixOf (c :: cs) then rep ++ pyRepCore pat rep fu ((c :: cs).drop pat.length)
      else c :: pyRepCore pat rep fu cs

/-- Python str.replace(pat, rep): replaces every occurrence; with an empty
pattern Python inserts rep before every character and once at the end. -/
def pyReplace (s pat rep : Str) : Str :=
  if pat.isEmpty then s.foldr (fun c acc => rep ++ c :: acc) rep
  else pyRepCore pat rep s.length s

/-- Substring test: pat occurs somewhere inside s. -/
def substr (pat s : Str) : Prop := ∃ x y, x ++ pat ++ y = s

/-- posixpath.dirname: everything up to the last slash, trailing slashes
stripped unless the head is all slashes. -/
def osDirname (p : Str) : Str :=
  let head := (p.reverse.dropWhile (fun c => c ≠ '/')).reverse
  if head.isEmpty then []
  else if head.all (fun c => c = '/') then head
  else (head.reverse.dropWhile (fun c => c = '/')).reverse

/-- posixpath.basename: everything after the last slash. -/
def osBasename (p : Str) : Str := (p.reverse.takeWhile (fun c => c ≠ '/')).reverse

/-- posixpath.join for the two-argument form used by the library. -/
def osJoin (d b : Str) : Str :=
  if b.head? = some '/' then b
  else if d.isEmpty then b
  else if d.getLast? = some '/' then d ++ b
  else d ++ '/' :: b

/-- A frame value: Python int, float or Decimal, represented by the integer
part and the fractional digit string exactly as str() prints them
(an int or integral Decimal has an empty fractional string). -/
structure Frame where
  ip : Int
  fracs : Str
deriving DecidableEq, Repr

instance : Inhabited Frame := ⟨⟨0, []⟩⟩

/-- Python str() of a frame value. -/
def strFrame (f : Frame) : Str :=
  intStr f.ip ++ (if f.fracs.isEmpty then [] else '.' :: f.fracs)

/-- Comparison of fractional digit strings by numeric value
(cross-multiplied to stay in Nat). -/
def fracLe (a b : Str) : Prop := numVal a * 10 ^ b.length ≤ numVal b * 10 ^ a.length

/-- The numeric order used by the frame sort: integer part first, then the
fractional digits.  This is the Python comparison for the nonnegative
frames the library constructs. -/
def frameLe (f g : Frame) : Prop := f.ip < g.ip ∨ (f.ip = g.ip ∧ fracLe f.fracs g.fracs)

instance : DecidableRel fracLe := fun a b =>
  inferInstanceAs (Decidable (numVal a * 10 ^ b.length ≤ numVal b * 10 ^ a.length))

instance : DecidableRel frameLe := fun f g =>
  inferInstanceAs (Decidable (f.ip < g.ip ∨ (f.ip = g.ip ∧ fracLe f.fracs g.fracs)))

/-- Python list(set(l)): deduplication keeping the first occurrence of each
element. -/
def dedupKFAux : List Frame → List Frame → List Frame
  | _, [] => []
  | seen, a :: l => if a ∈ seen then dedupKFAux seen l else a :: dedupKFAux (a :: seen) l

def dedupKF (l : List Frame) : List Frame := dedupKFAux [] l

/-- The frames-getter normalization: deduplicate, then sort ascending. -/
def sortDedup (l : List Frame) : List Frame := List.insertionSort frameLe (dedupKF l)

/-!
The filename grammar _RE_FILENAME:
name group (optional leading dot then one or more non-dot characters),
an optional frame section (integer or decimal literal, printf token,
UDIM token, Flame range, hash or at-sign run, Houdini token) and a
one- or two-component extension anchored at the end.  The functions below
model the deterministic result of the backtracking regex match.
-/

def isWordChar (c : Char) : Bool := c.isAlphanum || c = '_'

def isPadChar (c : Char) : Bool := c = '#' || c = '@'

def isFChar (c : Char) : Bool := c = 'f' || c = 'F'

/-- The extension grammar anchored at the end of the basename: a dot, a
nonempty word-character run, and an optional second dot-plus-run. -/
def extMatch (r : Str) : Bool :=
  match r with
  | [] => false
  | c :: cs =>
    if c = '.' then
      let w1 := cs.takeWhile isWordChar
      if w1.isEmpty then false
      else
        match cs.drop w1.length with
        | [] => true
        | c2 :: cs2 =>
          if c2 = '.' then
            let w2 := cs2.takeWhile isWordChar
            !w2.isEmpty && (cs2.drop w2.length).isEmpty
          else false
    else false

/-- The name group: an optional leading dot followed by a maximal nonempty
run of non-dot characters; returns the group and the remaining input. -/
def parseName (b : Str) : Option (Str × Str) :=
  match b with
  | [] => none
  | c :: cs =>
    if c = '.' then
      let run := cs.takeWhile (fun x => x ≠ '.')
      if run.isEmpty then none else some ('.' :: run, cs.drop run.length)
    else
      let run := (c :: cs).takeWhile (fun x => x ≠ '.')
      if run.isEmpty then none else some (run, (c :: cs).drop run.length)

/-- Which frame alternative of the grammar matched. -/
inductive FrameG where
  | num (d1 d2 : Str)
  | printf (ds : Str)
  | udim
  | flame (d1 d2 : Str)
  | padRun (run : Str)
  | hou (fs d : Str)
deriving DecidableEq, Repr

/-- Regex groups of a successful match, with the groupdict("") defaults. -/
structure MatchData where
  name : Str
  frame : Str
  floatPart : Str
  token : Str
  udim : Str
  flame : Str
  padRun : Str
  hipFrame : Str
  hipPadding : Str
  ext : Str
deriving DecidableEq, Repr

def emptyMD (n e : Str) : MatchData := ⟨n, [], [], [], [], [], [], [], [], e⟩

/-- Group assignment for each frame alternative. -/
def toMD (n : Str) (g : FrameG) (r : Str) : MatchData :=
  match g with
  | .num d1 d2 =>
    { emptyMD n r with
      frame := d1 ++ (if d2.isEmpty then [] else '.' :: d2),
      floatPart := if d2.isEmpty then [] else '.' :: d2 }
  | .printf ds => { emptyMD n r with token := ds }
  | .udim => { emptyMD n r with udim := strL "<UDIM>" }
  | .flame d1 d2 => { emptyMD n r with flame := d1 ++ '-' :: d2 }
  | .padRun run => { emptyMD n r with padRun := run }
  | .hou fs d => { emptyMD n r with hipFrame := '$' :: fs ++ d, hipPadding := d }

/-- Success of a frame alternative: the remainder must be a valid
extension. -/
def withExt (g : FrameG) (r : Str) : Option (FrameG × Str) :=
  if extMatch r then some (g, r) else none

/-- The greedy decimal continuation of an integer frame literal. -/
def numFloatArm (d1 r1 : Str) : Option (FrameG × Str) :=
  match r1 with
  | [] => none
  | c2 :: u =>
    if c2 = '.' then
      if (u.takeWhile Char.isDigit).isEmpty then none
      else withExt (.num d1 (u.takeWhile Char.isDigit)) (u.drop (u.takeWhile Char.isDigit).length)
    else none

/-- Integer or decimal frame literal; the decimal continuation is tried
first, falling back to the bare integer when the extension fails after it. -/
def altNum (t : Str) : Option (FrameG × Str) :=
  match numFloatArm (t.takeWhile Char.isDigit) (t.drop (t.takeWhile Char.isDigit).length) with
  | some x => some x
  | none => withExt (.num (t.takeWhile Char.isDigit) []) (t.drop (t.takeWhile Char.isDigit).length)

/-- Printf token, on the text after the percent sign. -/
def altPrintf (cs : Str) : Option (FrameG × Str) :=
  match cs with
  | [] => none
  | c2 :: u =>
    if c2 = '0' then
      if (u.takeWhile Char.isDigit).isEmpty then none
      else
        match u.drop (u.takeWhile Char.isDigit).length with
        | [] => none
        | c3 :: r => if c3 = 'd' then withExt (.printf (u.takeWhile Char.isDigit)) r else none
    else none

/-- Literal UDIM token. -/
def altUdim (t : Str) : Option (FrameG × Str) :=
  if (strL "<UDIM>").isPrefixOf t then withExt .udim (t.drop 6) else none

/-- Flame bracket range, on the text after the opening bracket. -/
def altFlame (cs : Str) : Option (FrameG × Str) :=
  if (cs.takeWhile Char.isDigit).isEmpty then none
  else
    match cs.drop (cs.takeWhile Char.isDigit).length with
    | [] => none
    | c2 :: v =>
      if c2 = '-' then
        if (v.takeWhile Char.isDigit).isEmpty then none
        else
          match v.drop (v.takeWhile Char.isDigit).length with
          | [] => none
          | c3 :: r =>
            if c3 = ']' then
              withExt (.flame (cs.takeWhile Char.isDigit) (v.takeWhile Char.isDigit)) r
            else none
      else none

/-- Hash or at-sign run. -/
def altPad (t : Str) : Option (FrameG × Str) :=
  withExt (.padRun (t.takeWhile isPadChar)) (t.drop (t.takeWhile isPadChar).length)

/-- Houdini token, on the text after the dollar sign. -/
def altHou (cs : Str) : Option (FrameG × Str) :=
  if (cs.takeWhile isFChar).isEmpty then none
  else
    match cs.drop (cs.takeWhile isFChar).length with
    | [] => none
    | d :: r =>
      if d.isDigit then withExt (.hou (cs.takeWhile isFChar) [d]) r
      else withExt (.hou (cs.takeWhile isFChar) []) (d :: r)

/-- Try the frame alternatives at the text after the dot that opens the frame
section; each alternative must be followed by a valid extension.  The
alternatives have pairwise distinct leading characters, so the regex engine
result is the result of the single alternative selected by the first
character, or no match at all. -/
def tryAltExt (t : Str) : Option (FrameG × Str) :=
  match t with
  | [] => none
  | c :: cs =>
    if c.isDigit then altNum (c :: cs)
    else if c = '%' then altPrintf cs
    else if c = '<' then altUdim (c :: cs)
    else if c = '[' then altFlame cs
    else if isPadChar c then altPad (c :: cs)
    else if c = '$' then altHou cs
    else none

/-- Match after the name group: an optional frame section, then the
extension; when the frame section fails, the extension must consume the
whole remainder. -/
def matchRest (n rest : Str) : Option MatchData :=
  match rest with
  | [] => none
  | c :: t =>
    if c = '.' then
      match tryAltExt t with
      | some (g, r) => some (toMD n g r)
      | none => if extMatch rest then some (emptyMD n rest) else none
    else none

/-- The full _RE_FILENAME match on a basename. -/
def matchFilename (b : Str) : Option MatchData :=
  match parseName b with
  | some (n, rest) => matchRest n rest
  | none => none

/-!
The ImageSequence state.  The dict _data is the MatchData record (its frame
field is mutable: setters rewrite it); _frames with the lazy-normalization
bookkeeping is modelled by framesRaw plus an upToDate flag, where upToDate
false means the next read of the frames property re-normalizes (the hash
comparison of the source is treated as an exact change detector).  The
padding may transiently hold the float("inf") sentinel used by
find_frames_on_disk, hence WithTop Nat.
-/

structure ImageSequence where
  dirname : Str
  data : MatchData
  framesRaw : List Frame
  upToDate : Bool
  padding : WithTop Nat
  paddingStyle : Str
deriving DecidableEq, Repr

instance : Inhabited ImageSequence :=
  ⟨⟨[], emptyMD [] [], [], true, 0, []⟩⟩

def ImageSequence.BOOST : Str := strL "%"

def ImageSequence.HASH : Str := strL "#"

def ImageSequence.AT_SIGN : Str := strL "@"

def ImageSequence.FLAME : Str := strL "flame"

def ImageSequence.HOUDINI : Str := strL "houdini"

def ImageSequence.HOUDINI_FF : Str := strL "$FF"

def ImageSequence.UDIM : Str := strL "<UDIM>"

def FRAME_TOKEN : Str := strL "<FRAME>"

/-- The frames property read: normalized (dedup + ascending sort) when the
stored list may be out of date. -/
def framesOf (s : ImageSequence) : List Frame :=
  if s.upToDate then s.framesRaw else sortDedup s.framesRaw

/-- State after a frames-property read: the normalized list is cached. -/
def cacheFrames (s : ImageSequence) : ImageSequence :=
  { s with framesRaw := framesOf s, upToDate := true }

def startF (s : ImageSequence) : Frame := (framesOf s).headD ⟨0, []⟩

def endF (s : ImageSequence) : Frame := (framesOf s).getLastD ⟨0, []⟩

def setFrameTok (s : ImageSequence) (v : Str) : ImageSequence :=
  { s with data := { s.data with frame := v } }

def padDigits (p : WithTop Nat) : Str :=
  if p = ⊤ then strL "inf" else natDigits (p.untop' 0)

/-- The {self.padding or ""} part of the Houdini token. -/
def houdiniSuffix (p : WithTop Nat) : Str :=
  if p = 0 then [] else padDigits p

def strRepeat (s : Str) : Nat → Str
  | 0 => []
  | n + 1 => s ++ strRepeat s n

/-- _create_padding_format: regenerate the rendered frame token from the
current padding and padding style.  The Flame branch reads the frames
property twice (start and end), which caches the normalized list.  In the
default branch a padding of top is unreachable (Python would raise
a TypeError on str * float); it is mapped to zero repetitions. -/
def createPaddingFormat (s : ImageSequence) : ImageSequence :=
  if s.paddingStyle = ImageSequence.BOOST then
    setFrameTok s ('.' :: '%' :: '0' :: (padDigits s.padding ++ ['d']))
  else if s.paddingStyle = ImageSequence.FLAME then
    let s2 := cacheFrames s
    setFrameTok s2 ('.' :: '[' :: (strFrame (startF s2) ++ '-' :: strFrame (endF s2) ++ [']']))
  else if s.paddingStyle = ImageSequence.HOUDINI_FF then
    setFrameTok s (strL ".$FF")
  else if s.paddingStyle = ImageSequence.HOUDINI then
    setFrameTok s ('.' :: '$' :: 'F' :: houdiniSuffix s.padding)
  else if s.paddingStyle = ImageSequence.UDIM then
    setFrameTok s (strL ".<UDIM>")
  else
    setFrameTok s ('.' :: strRepeat s.paddingStyle (s.padding.untop' 0))

/-- The padding setter: a value below one clears the frame token, otherwise
the token is regenerated. -/
def paddingSet (s : ImageSequence) (v : WithTop Nat) : ImageSequence :=
  let s2 := { s with padding := v }
  if v < 1 then setFrameTok s2 [] else createPaddingFormat s2

/-- The padding_style setter: store the style and regenerate the token. -/
def paddingStyleSet (s : ImageSequence) (v : Str) : ImageSequence :=
  createPaddingFormat { s with paddingStyle := v }

/-- The frames setter: store the list, mark it out of date, and under the
Flame style regenerate the token (it embeds the endpoints). -/
def framesSet (s : ImageSequence) (l : List Frame) : ImageSequence :=
  let s2 := { s with framesRaw := l, upToDate := false }
  if s2.paddingStyle = ImageSequence.FLAME then createPaddingFormat s2 else s2

def splitOnChar (c : Char) : Str → List Str
  | [] => [[]]
  | a :: rest =>
    match splitOnChar c rest with
    | [] => [[a]]
    | h :: t => if a = c then [] :: h :: t else (a :: h) :: t

/-- The state set up at the top of the constructor, before the frame-group
branches run. -/
def initState (p style : Str) (m : MatchData) : ImageSequence :=
  { dirname := osDirname p, data := m, framesRaw := [], upToDate := true,
    padding := 0, paddingStyle := style }

/-- The body of ImageSequence.__init__ on a successful grammar match. -/
def initSeq (p style : Str) (m : MatchData) : ImageSequence :=
  if ¬ m.frame.isEmpty then
    let d1 := pyReplace m.frame m.floatPart []
    let f : Frame :=
      if m.floatPart.isEmpty then ⟨intVal m.frame, []⟩ else ⟨intVal d1, m.floatPart.drop 1⟩
    let s1 := { initState p style m with framesRaw := [f], upToDate := false }
    paddingSet s1 (d1.length : Nat)
  else if ¬ m.token.isEmpty then
    paddingSet (initState p style m) (numVal m.token : Nat)
  else if ¬ m.padRun.isEmpty then
    paddingSet (initState p style m) (m.padRun.length : Nat)
  else if ¬ m.flame.isEmpty then
    let s1 := framesSet (initState p style m) ((splitOnChar '-' m.flame).map (fun q => ⟨intVal q, []⟩))
    paddingSet s1 ((strFrame (startF s1)).length : Nat)
  else if ¬ m.hipFrame.isEmpty then
    paddingSet (initState p style m) (if m.hipPadding.isEmpty then (1 : Nat) else (numVal m.hipPadding : Nat))
  else if ¬ m.udim.isEmpty then
    paddingSet (initState p style m) 4
  else initState p style m

def errMsg (p : Str) : Str := strL "Input path \"" ++ p ++ ['"']

/-- The strict constructor: a parse failure raises ImageSequenceParseError
with the offending path in the message. -/
def ImageSequence.construct (p style : Str) : Except Str ImageSequence :=
  match matchFilename (osBasename p) with
  | some m => .ok (initSeq p style m)
  | none => .error (errMsg p)

/-- ImageSequence.new: the factory that returns None on a parse failure. -/
def ImageSequence.new (p style : Str) : Option ImageSequence :=
  match matchFilename (osBasename p) with
  | some m => some (initSeq p style m)
  | none => none

def basenameOf (s : ImageSequence) : Str := s.data.name ++ s.data.frame ++ s.data.ext

def pathOf (s : ImageSequence) : Str := osJoin s.dirname (basenameOf s)

/-- abstract_path_representation: the frame token replaced (str.replace, all
occurrences) by the sentinel. -/
def abstractPath (s : ImageSequence) : Str :=
  pyReplace (pathOf s) s.data.frame ('.' :: FRAME_TOKEN)

/-- The eq operator: equality of abstract paths. -/
def seqEq (a b : ImageSequence) : Prop := abstractPath a = abstractPath b

instance : Decidable (seqEq a b) := inferInstanceAs (Decidable (_ = _))

/-- _RE_FLOAT_SUFFIX.sub("", s): remove every dot-plus-digits run. -/
def floatSubF : Nat → Str → Str
  | 0, s => s
  | fu + 1, s =>
    match s with
    | [] => []
    | c :: cs =>
      if c = '.' then
        (let ds := cs.takeWhile Char.isDigit
         if ds.isEmpty then '.' :: floatSubF fu cs else floatSubF fu (cs.drop ds.length))
      else c :: floatSubF fu cs

def floatSub (s : Str) : Str := floatSubF s.length s

/-- First match of _RE_FLOAT_SUFFIX in s, or empty. -/
def floatSearch : Str → Str
  | [] => []
  | c :: cs =>
    if c = '.' then
      (let ds := cs.takeWhile Char.isDigit
       if ds.isEmpty then floatSearch cs else '.' :: ds)
    else floatSearch cs

def leftPad (w : Nat) (ds : Str) : Str := List.replicate (w - ds.length) '0' ++ ds

/-- Python "%0{w}d" % n.  A width of top never reaches this point. -/
def pyFormatInt (w : WithTop Nat) (n : Int) : Str :=
  let wn := w.untop' 0
  if n < 0 then '-' :: leftPad (wn - 1) (natDigits n.natAbs) else leftPad wn (natDigits n.natAbs)

/-- _format_frame: strip the fractional suffix from str(frame), zero-pad the
integer part shifted by the offset, re-append the fractional suffix, and
substitute for the frame token. -/
def formatFrame (s : ImageSequence) (p : Str) (f : Frame) (off : Int) : Str :=
  let number := floatSub (strFrame f)
  let dec := floatSearch (strFrame f)
  let fnum := pyFormatInt s.padding (intVal number + off) ++ dec
  pyReplace p FRAME_TOKEN fnum

/-- _get_path_for_formatting: the path with the frame token replaced by the
sentinel placeholder (kept empty when there is no frame section). -/
def fmtPath (s : ImageSequence) : Str :=
  osJoin s.dirname (s.data.name ++ (if s.data.frame.isEmpty then [] else '.' :: FRAME_TOKEN) ++ s.data.ext)

def evalAtFrame (s : ImageSequence) (f : Frame) : Str :=
  if s.padding = 0 then fmtPath s else formatFrame s (fmtPath s) f 0

def getPaths (s : ImageSequence) (off : Int) : List Str :=
  if framesOf s = [] then [fmtPath s] else (framesOf s).map (fun f => formatFrame s (fmtPath s) f off)

/-- merge: append the other frames through the property (both sides read
normalized), force the dirty flag, and adopt the smaller padding. -/
def merge (a b : ImageSequence) : ImageSequence :=
  let a1 := framesSet a (framesOf a ++ framesOf b)
  let a2 := { a1 with upToDate := false }
  if b.padding < a2.padding then paddingSet a2 b.padding else a2

/-- find_frames_on_disk, with the directory listing passed explicitly: each
entry is a full path plus an is-file flag.  The padding is parked at the
infinity sentinel, every matching parsed entry is merged, and the old
padding is restored when nothing matched.  The final frames read caches the
normalized list. -/
def findFramesOnDisk (s : ImageSequence) (dirExists : Bool) (entries : List (Str × Bool)) :
    Bool × ImageSequence :=
  if s.dirname.isEmpty then (false, s)
  else if s.data.frame.isEmpty then (false, s)
  else if ¬ dirExists then (false, s)
  else
    let old := s.padding
    let s1 : ImageSequence := { s with padding := ⊤ }
    let s2 := entries.foldl
      (fun st e =>
        if ¬ e.2 then st
        else
          match ImageSequence.new e.1 ImageSequence.HASH with
          | none => st
          | some el => if abstractPath st = abstractPath el then merge st el else st)
      s1
    let s3 := if s2.padding = ⊤ then paddingSet s2 old else s2
    let s4 := cacheFrames s3
    (!(framesOf s4).isEmpty, s4)

/-! Concrete sequences used by witnesses and counterexamples. -/

def seqUdimParsed : ImageSequence :=
  (ImageSequence.new (strL "/mock/path/file.<UDIM>.exr") ImageSequence.HASH).getD default

def mdUdim : MatchData :=
  (matchFilename (osBasename (strL "/mock/path/file.<UDIM>.exr"))).getD (emptyMD [] [])

def seq101 : ImageSequence :=
  (ImageSequence.new (strL "/mock/file.101.exr") ImageSequence.HASH).getD default

def seqSkin : ImageSequence :=
  (ImageSequence.new (strL "/mock/path/skin_bgeo_v023.####.bgeo.sc") ImageSequence.HASH).getD default

def seqFile1001 : ImageSequence :=
  (ImageSequence.new (strL "/mock/file.1001.exr") ImageSequence.HASH).getD default

def seqNameA : ImageSequence :=
  (ImageSequence.new (strL "/mock/path/file_name.101.exr") ImageSequence.HASH).getD default

def seqNameB : ImageSequence :=
  (ImageSequence.new (strL "/mock/path/file_name.222.exr") ImageSequence.HASH).getD default

def seqOtherDir : ImageSequence :=
  (ImageSequence.new (strL "/mock/file_name.101.exr") ImageSequence.HASH).getD default

/-! Shape of the name group and of the os.path components. -/

def ValidName (n : Str) : Prop :=
  ∃ pre run, (pre = [] ∨ pre = ['.']) ∧ run ≠ [] ∧ (∀ c ∈ run, c ≠ '.') ∧ n = pre ++ run

def dirOK (d : Str) : Prop := d = [] ∨ (∀ c ∈ d, c = '/') ∨ d.getLast? ≠ some '/'

/-- The prefix that osJoin puts before a relative basename. -/
def joinPref (d : Str) : Str :=
  if d.isEmpty then [] else if d.getLast? = some '/' then d else d ++ ['/']

/-- Decidable test: the only occurrence of pat in s is at position p0. -/
def uniqOcc (s pat : Str) (p0 : Nat) : Bool :=
  (List.range (s.length + 1)).all (fun q => !(pat.isPrefixOf (s.drop q)) || q == p0)

def tokPos (s : ImageSequence) : Nat := (joinPref s.dirname).length + s.data.name.length

instance : IsTotal Frame frameLe := ⟨by
  intro f g
  rcases lt_trichotomy f.ip g.ip with h | h | h
  · exact Or.inl (Or.inl h)
  · rcases Nat.le_total (numVal f.fracs * 10 ^ g.fracs.length) (numVal g.fracs * 10 ^ f.fracs.length) with h2 | h2
    · exact Or.inl (Or.inr ⟨h, h2⟩)
    · exact Or.inr (Or.inr ⟨h.symm, h2⟩)
  · exact Or.inr (Or.inl h)⟩

lemma fracLe_trans {a b c : Str} (h1 : fracLe a b) (h2 : fracLe b c) : fracLe a c := by
  unfold fracLe at h1 h2 ⊢
  have h3 : numVal a * 10 ^ c.length * 10 ^ b.length ≤ numVal c * 10 ^ a.length * 10 ^ b.length := by
    calc numVal a * 10 ^ c.length * 10 ^ b.length
        = numVal a * 10 ^ b.length * 10 ^ c.length := by ring
      _ ≤ numVal b * 10 ^ a.length * 10 ^ c.length := Nat.mul_le_mul_right _ h1
      _ = numVal b * 10 ^ c.length * 10 ^ a.length := by ring
      _ ≤ numVal c * 10 ^ b.length * 10 ^ a.length := Nat.mul_le_mul_right _ h2
      _ = numVal c * 10 ^ a.length * 10 ^ b.length := by ring
  exact Nat.le_of_mul_le_mul_right h3 (Nat.pos_pow_of_pos _ (by norm_num))

instance : IsTrans Frame frameLe := ⟨by
  intro f g h hfg hgh
  rcases hfg with h1 | ⟨h1, h1f⟩
  · rcases hgh with h2 | ⟨h2, h2f⟩
    · exact Or.inl (lt_trans h1 h2)
    · exact Or.inl (h2 ▸ h1)
  · rcases hgh with h2 | ⟨h2, h2f⟩
    · exact Or.inl (h1 ▸ h2)
    · exact Or.inr ⟨h1.trans h2, fracLe_trans h1f h2f⟩⟩

lemma mem_dedupKFAux {l : List Frame} {seen : List Frame} {x : Frame} :
    x ∈ dedupKFAux seen l ↔ x ∈ l ∧ x ∉ seen := by
  induction l generalizing seen with
  | nil => simp [dedupKFAux]
  | cons a l ih =>
    by_cases h : a ∈ seen
    · simp only [dedupKFAux, if_pos h, ih, List.mem_cons]
      constructor
      · rintro ⟨hx, hs⟩
        exact ⟨Or.inr hx, hs⟩
      · rintro ⟨hx | hx, hs⟩
        · exact absurd (hx ▸ h) hs
        · exact ⟨hx, hs⟩
    · simp only [dedupKFAux, if_neg h, List.mem_cons, ih]
      constructor
      · rintro (rfl | ⟨hx, hs⟩)
        · exact ⟨Or.inl rfl, h⟩
        · simp only [List.mem_cons, not_or] at hs
          exact ⟨Or.inr hx, hs.2⟩
      · rintro ⟨rfl | hx, hs⟩
        · exact Or.inl rfl
        · by_cases hxa : x = a
          · exact Or.inl hxa
          · exact Or.inr ⟨hx, by simp [hxa, hs]⟩

lemma mem_dedupKF {l : List Frame} {x : Frame} : x ∈ dedupKF l ↔ x ∈ l := by
  simp [dedupKF, mem_dedupKFAux]

lemma nodup_dedupKFAux (l : List Frame) (seen : List Frame) : (dedupKFAux seen l).Nodup := by
  induction l generalizing seen with
  | nil => simp [dedupKFAux]
  | cons a l ih =>
    by_cases h : a ∈ seen
    · simpa [dedupKFAux, if_pos h] using ih seen
    · rw [dedupKFAux, if_neg h]
      refine List.Nodup.cons ?_ (ih (a :: seen))
      intro hmem
      exact (mem_dedupKFAux.1 hmem).2 (List.mem_cons_self a seen)

lemma nodup_dedupKF (l : List Frame) : (dedupKF l).Nodup := nodup_dedupKFAux l []

lemma nodup_sortDedup (l : List Frame) : (sortDedup l).Nodup :=
  ((List.perm_insertionSort frameLe (dedupKF l)).nodup_iff).2 (nodup_dedupKF l)

lemma sorted_sortDedup (l : List Frame) : List.Sorted frameLe (sortDedup l) :=
  List.sorted_insertionSort frameLe (dedupKF l)

lemma mem_sortDedup {l : List Frame} {x : Frame} : x ∈ sortDedup l ↔ x ∈ l := by
  simp [sortDedup, mem_dedupKF]

lemma dedupKFAux_of_nodup :
    ∀ (l seen : List Frame), l.Nodup → (∀ x ∈ seen, x ∉ l) → dedupKFAux seen l = l := by
  intro l
  induction l with
  | nil => intro seen _ _; rfl
  | cons a l ih =>
    intro seen hn hseen
    have ha : a ∉ seen := fun h => hseen a h (List.mem_cons_self a l)
    have hc := List.nodup_cons.1 hn
    rw [dedupKFAux, if_neg ha, ih (a :: seen) hc.2 ?_]
    intro x hx
    rcases List.mem_cons.1 hx with rfl | hx
    · exact hc.1
    · intro hxl
      exact hseen x hx (List.mem_cons_of_mem a hxl)

lemma dedupKF_of_nodup {l : List Frame} (hn : l.Nodup) : dedupKF l = l :=
  dedupKFAux_of_nodup l [] hn (by simp)

lemma sortDedup_sorted_nodup {l : List Frame} (hs : List.Sorted frameLe l) (hn : l.Nodup) :
    sortDedup l = l := by
  rw [sortDedup, dedupKF_of_nodup hn]
  exact hs.insertionSort_eq

lemma sortDedup_idem (l : List Frame) : sortDedup (sortDedup l) = sortDedup l :=
  sortDedup_sorted_nodup (sorted_sortDedup l) (nodup_sortDedup l)

/-! State lemmas for the setters and for merge. -/

lemma setFrameTok_dirname (s : ImageSequence) (v : Str) : (setFrameTok s v).dirname = s.dirname := rfl

lemma framesOf_cacheFrames (s : ImageSequence) : framesOf (cacheFrames s) = framesOf s := by
  simp [cacheFrames, framesOf]

lemma createPaddingFormat_dirname (s : ImageSequence) :
    (createPaddingFormat s).dirname = s.dirname := by
  unfold createPaddingFormat
  split_ifs <;> simp [setFrameTok, cacheFrames]

lemma createPaddingFormat_name (s : ImageSequence) :
    (createPaddingFormat s).data.name = s.data.name := by
  unfold createPaddingFormat
  split_ifs <;> simp [setFrameTok, cacheFrames]

lemma createPaddingFormat_ext (s : ImageSequence) :
    (createPaddingFormat s).data.ext = s.data.ext := by
  unfold createPaddingFormat
  split_ifs <;> simp [setFrameTok, cacheFrames]

lemma createPaddingFormat_padding (s : ImageSequence) :
    (createPaddingFormat s).padding = s.padding := by
  unfold createPaddingFormat
  split_ifs <;> simp [setFrameTok, cacheFrames]

lemma createPaddingFormat_style (s : ImageSequence) :
    (createPaddingFormat s).paddingStyle = s.paddingStyle := by
  unfold createPaddingFormat
  split_ifs <;> simp [setFrameTok, cacheFrames]

lemma framesOf_createPaddingFormat (s : ImageSequence) :
    framesOf (createPaddingFormat s) = framesOf s := by
  unfold createPaddingFormat
  split_ifs <;> simp [setFrameTok, cacheFrames, framesOf]

lemma paddingSet_padding (s : ImageSequence) (v : WithTop Nat) : (paddingSet s v).padding = v := by
  unfold paddingSet
  split_ifs with h
  · rfl
  · rw [createPaddingFormat_padding]

lemma paddingSet_dirname (s : ImageSequence) (v : WithTop Nat) :
    (paddingSet s v).dirname = s.dirname := by
  unfold paddingSet
  split_ifs with h
  · rfl
  · rw [createPaddingFormat_dirname]

lemma paddingSet_name (s : ImageSequence) (v : WithTop Nat) :
    (paddingSet s v).data.name = s.data.name := by
  unfold paddingSet
  split_ifs with h
  · rfl
  · rw [createPaddingFormat_name]

lemma paddingSet_ext (s : ImageSequence) (v : WithTop Nat) :
    (paddingSet s v).data.ext = s.data.ext := by
  unfold paddingSet
  split_ifs with h
  · rfl
  · rw [createPaddingFormat_ext]

lemma paddingSet_style (s : ImageSequence) (v : WithTop Nat) :
    (paddingSet s v).paddingStyle = s.paddingStyle := by
  unfold paddingSet
  split_ifs with h
  · rfl
  · rw [createPaddingFormat_style]

lemma framesOf_paddingSet (s : ImageSequence) (v : WithTop Nat) :
    framesOf (paddingSet s v) = framesOf s := by
  unfold paddingSet
  split_ifs with h
  · rfl
  · rw [framesOf_createPaddingFormat]
    simp [framesOf]

lemma framesSet_def (s : ImageSequence) (l : List Frame) :
    framesSet s l =
      if s.paddingStyle = ImageSequence.FLAME
      then createPaddingFormat { s with framesRaw := l, upToDate := false }
      else { s with framesRaw := l, upToDate := false } := rfl

lemma framesSet_padding (s : ImageSequence) (l : List Frame) : (framesSet s l).padding = s.padding := by
  rw [framesSet_def]
  split_ifs with h
  · rw [createPaddingFormat_padding]
  · rfl

lemma framesSet_dirname (s : ImageSequence) (l : List Frame) :
    (framesSet s l).dirname = s.dirname := by
  rw [framesSet_def]
  split_ifs with h
  · rw [createPaddingFormat_dirname]
  · rfl

lemma framesSet_name (s : ImageSequence) (l : List Frame) :
    (framesSet s l).data.name = s.data.name := by
  rw [framesSet_def]
  split_ifs with h
  · rw [createPaddingFormat_name]
  · rfl

lemma framesSet_ext (s : ImageSequence) (l : List Frame) :
    (framesSet s l).data.ext = s.data.ext := by
  rw [framesSet_def]
  split_ifs with h
  · rw [createPaddingFormat_ext]
  · rfl

lemma framesSet_style (s : ImageSequence) (l : List Frame) :
    (framesSet s l).paddingStyle = s.paddingStyle := by
  rw [framesSet_def]
  split_ifs with h
  · rw [createPaddingFormat_style]
  · rfl

lemma framesOf_framesSet (s : ImageSequence) (l : List Frame) :
    framesOf (framesSet s l) = sortDedup l := by
  rw [framesSet_def]
  split_ifs with h
  · rw [framesOf_createPaddingFormat]
    simp [framesOf]
  · simp [framesOf]

lemma framesOf_markDirty (s : ImageSequence) :
    framesOf { s with upToDate := false } = sortDedup s.framesRaw := by
  simp [framesOf]

lemma merge_def (a b : ImageSequence) :
    merge a b =
      if b.padding < (framesSet a (framesOf a ++ framesOf b)).padding
      then paddingSet { framesSet a (framesOf a ++ framesOf b) with upToDate := false } b.padding
      else { framesSet a (framesOf a ++ framesOf b) with upToDate := false } := rfl

lemma framesRaw_framesSet_sd (s : ImageSequence) (l : List Frame) :
    sortDedup (framesSet s l).framesRaw = sortDedup l := by
  rw [framesSet_def]
  split_ifs with h
  · unfold createPaddingFormat
    split_ifs <;> simp [setFrameTok, cacheFrames, framesOf, sortDedup_idem]
  · rfl

lemma merge_framesOf (a b : ImageSequence) :
    framesOf (merge a b) = sortDedup (framesOf a ++ framesOf b) := by
  rw [merge_def]
  split_ifs with h
  · rw [framesOf_paddingSet, framesOf_markDirty, framesRaw_framesSet_sd]
  · rw [framesOf_markDirty, framesRaw_framesSet_sd]

lemma merge_padding (a b : ImageSequence) :
    (merge a b).padding = if b.padding < a.padding then b.padding else a.padding := by
  rw [merge_def, framesSet_padding]
  split_ifs with h
  · rw [paddingSet_padding]
  · simp [framesSet_padding]

/-! Dedup-and-sort of an append where the tail adds nothing new. -/

lemma dedupKFAux_nil_of_subset :
    ∀ (y seen : List Frame), (∀ x ∈ y, x ∈ seen) → dedupKFAux seen y = [] := by
  intro y
  induction y with
  | nil => intro seen _; rfl
  | cons a y ih =>
    intro seen hsub
    have ha : a ∈ seen := hsub a (List.mem_cons_self a y)
    rw [dedupKFAux, if_pos ha]
    exact ih seen (fun x hx => hsub x (List.mem_cons_of_mem a hx))

lemma dedupKFAux_append_subset :
    ∀ (L y seen : List Frame), L.Nodup → (∀ x ∈ seen, x ∉ L) → (∀ x ∈ y, x ∈ L ∨ x ∈ seen) →
      dedupKFAux seen (L ++ y) = L := by
  intro L
  induction L with
  | nil =>
    intro y seen _ _ hy
    simp only [List.nil_append]
    refine dedupKFAux_nil_of_subset y seen ?_
    intro x hx
    rcases hy x hx with h | h
    · cases h
    · exact h
  | cons a L ih =>
    intro y seen hn hseen hy
    have hc := List.nodup_cons.1 hn
    have ha : a ∉ seen := fun h => hseen a h (List.mem_cons_self a L)
    rw [List.cons_append, dedupKFAux, if_neg ha]
    rw [ih y (a :: seen) hc.2 ?_ ?_]
    · intro x hx
      rcases List.mem_cons.1 hx with rfl | hx
      · exact hc.1
      · intro hxl
        exact hseen x hx (List.mem_cons_of_mem a hxl)
    · intro x hx
      rcases hy x hx with h | h
      · rcases List.mem_cons.1 h with rfl | h2
        · exact Or.inr (List.mem_cons_self x seen)
        · exact Or.inl h2
      · exact Or.inr (List.mem_cons_of_mem a h)

lemma sortDedup_append_of_subset {L y : List Frame} (hn : L.Nodup)
    (hs : List.Sorted frameLe L) (h : ∀ x ∈ y, x ∈ L) : sortDedup (L ++ y) = L := by
  rw [sortDedup, dedupKF, dedupKFAux_append_subset L y [] hn (by simp) ?_]
  · exact hs.insertionSort_eq
  · intro x hx
    exact Or.inl (h x hx)

/-- C6: every list stored through the frames setter, and the frame list of
every merge result, reads back through the frames property deduplicated and
sorted ascending; the concrete assignment [50,10,20,30,40,40,10] on a parsed
sequence reads back as [10,20,30,40,50]. -/
theorem c6_frames_read_sorted_nodup :
    (∀ (s : ImageSequence) (l : List Frame),
      (framesOf (framesSet s l)).Nodup ∧ List.Sorted frameLe (framesOf (framesSet s l)))
    ∧ (∀ a b : ImageSequence,
      (framesOf (merge a b)).Nodup ∧ List.Sorted frameLe (framesOf (merge a b)))
    ∧ (ImageSequence.new (strL "/mock/path/file_name.@@@.exr") ImageSequence.HASH).map
        (fun s => framesOf (framesSet s
          [⟨50, []⟩, ⟨10, []⟩, ⟨20, []⟩, ⟨30, []⟩, ⟨40, []⟩, ⟨40, []⟩, ⟨10, []⟩]))
        = some [⟨10, []⟩, ⟨20, []⟩, ⟨30, []⟩, ⟨40, []⟩, ⟨50, []⟩] := by
  refine ⟨?_, ?_, by decide⟩
  · intro s l
    rw [framesOf_framesSet]
    exact ⟨nodup_sortDedup l, sorted_sortDedup l⟩
  · intro a b
    rw [merge_framesOf]
    exact ⟨nodup_sortDedup _, sorted_sortDedup _⟩

/-- C7: merging the same sequence twice yields the same frame set as merging
it once. -/
theorem c7_merge_idempotent :
    ∀ a b : ImageSequence, framesOf (merge (merge a b) b) = framesOf (merge a b) := by
  intro a b
  rw [merge_framesOf, merge_framesOf]
  refine sortDedup_append_of_subset (nodup_sortDedup _) (sorted_sortDedup _) ?_
  intro x hx
  rw [mem_sortDedup]
  exact List.mem_append_right _ hx

/-- C10: merge unconditionally unions the frames of the other sequence into
the subject and adopts the smaller padding, with no abstract-path check:
the union and padding formulas hold for every pair of sequences, and two
parsed sequences with different abstract paths still combine silently. -/
theorem c10_merge_unconditional :
    (∀ a b : ImageSequence,
      (∀ x, x ∈ framesOf (merge a b) ↔ x ∈ framesOf a ∨ x ∈ framesOf b)
      ∧ (merge a b).padding = (if b.padding < a.padding then b.padding else a.padding))
    ∧ (ImageSequence.new (strL "/mock/a.101.exr") ImageSequence.HASH).map
        (fun a => (ImageSequence.new (strL "/other/b.5.exr") ImageSequence.HASH).map
          (fun b => (decide (¬ seqEq a b), framesOf (merge a b), (merge a b).padding)))
        = some (some (true, [⟨5, []⟩, ⟨101, []⟩], (1 : WithTop Nat))) := by
  refine ⟨?_, by decide⟩
  intro a b
  refine ⟨?_, merge_padding a b⟩
  intro x
  rw [merge_framesOf, mem_sortDedup, List.mem_append]

/-- C4: disk discovery against the subject parsed from
/mock/file.#########.exr with a listing holding file.999.exr and
file.1001.exr merges both, reads frames [999, 1001], ends with the minimal
padding 3 and renders the path /mock/file.###.exr. -/
theorem c4_disk_discovery_minimal_padding :
    (ImageSequence.new (strL "/mock/file.#########.exr") ImageSequence.HASH).map
      (fun s =>
        let r := findFramesOnDisk s true
          [(strL "/mock/file.999.exr", true), (strL "/mock/file.1001.exr", true)]
        (r.1, framesOf r.2, r.2.padding, pathOf r.2))
    = some (true, [⟨999, []⟩, ⟨1001, []⟩], (3 : WithTop Nat), strL "/mock/file.###.exr") := by
  decide

/-! Inversion of the parser and of the constructor body. -/

lemma matchFilename_inv {b : Str} {m : MatchData} (h : matchFilename b = some m) :
    ∃ n rest, parseName b = some (n, rest) ∧ matchRest n rest = some m := by
  unfold matchFilename at h
  cases hp : parseName b with
  | none => rw [hp] at h; cases h
  | some pr =>
    obtain ⟨n, rest⟩ := pr
    rw [hp] at h
    exact ⟨n, rest, rfl, h⟩

lemma matchRest_inv {n rest : Str} {m : MatchData} (h : matchRest n rest = some m) :
    ∃ t, rest = '.' :: t ∧
      ((∃ g r, tryAltExt t = some (g, r) ∧ m = toMD n g r) ∨
       (tryAltExt t = none ∧ extMatch rest = true ∧ m = emptyMD n rest)) := by
  cases rest with
  | nil => exact Option.noConfusion h
  | cons c t =>
    rw [show matchRest n (c :: t)
        = (if c = '.' then
            match tryAltExt t with
            | some (g, r) => some (toMD n g r)
            | none => if extMatch (c :: t) = true then some (emptyMD n (c :: t)) else none
          else none) from rfl] at h
    by_cases hc : c = '.'
    · subst hc
      rw [if_pos rfl] at h
      cases ha : tryAltExt t with
      | some gr =>
        obtain ⟨g, r⟩ := gr
        rw [ha] at h
        simp only [Option.some.injEq] at h
        exact ⟨t, rfl, Or.inl ⟨g, r, ha, h.symm⟩⟩
      | none =>
        rw [ha] at h
        split_ifs at h with he
        simp only [Option.some.injEq] at h
        exact ⟨t, rfl, Or.inr ⟨ha, he, h.symm⟩⟩
    · rw [if_neg hc] at h
      exact Option.noConfusion h

lemma initSeq_style (p st : Str) (m : MatchData) : (initSeq p st m).paddingStyle = st := by
  unfold initSeq
  split_ifs <;> simp [paddingSet_style, framesSet_style, initState]

lemma initSeq_dirname (p st : Str) (m : MatchData) : (initSeq p st m).dirname = osDirname p := by
  unfold initSeq
  split_ifs <;> simp [paddingSet_dirname, framesSet_dirname, initState]

lemma initSeq_name (p st : Str) (m : MatchData) : (initSeq p st m).data.name = m.name := by
  unfold initSeq
  split_ifs <;> simp [paddingSet_name, framesSet_name, initState]

lemma initSeq_ext (p st : Str) (m : MatchData) : (initSeq p st m).data.ext = m.ext := by
  unfold initSeq
  split_ifs <;> simp [paddingSet_ext, framesSet_ext, initState]

/-- C2 counterexample input: a basename whose frame position is the literal
UDIM token, constructed under the default hash style. -/
theorem c2_counterexample :
    (ImageSequence.new (strL "/mock/path/file.<UDIM>.exr") ImageSequence.HASH).map
      ImageSequence.paddingStyle = some ImageSequence.HASH
    ∧ ImageSequence.HASH ≠ ImageSequence.UDIM
    ∧ (ImageSequence.new (strL "/mock/path/file.<UDIM>.exr") ImageSequence.HASH).map pathOf
        = some (strL "/mock/path/file.####.exr") := by
  decide

/-- C2 (amended): the constructed padding style is always the caller
supplied style, for every input path and every style; self-declaring tokens
only determine the padding (and, for Flame, the frames), never the style. -/
theorem c2_style_is_callers :
    ∀ (p st : Str) (s : ImageSequence), ImageSequence.new p st = some s → s.paddingStyle = st := by
  intro p st s h
  unfold ImageSequence.new at h
  cases hm : matchFilename (osBasename p) with
  | none => rw [hm] at h; cases h
  | some m =>
    rw [hm] at h
    simp only [Option.some.injEq] at h
    rw [← h]
    exact initSeq_style p st m

/-- Witness for C2: the parsed UDIM-token path keeps the hash style. -/
theorem c2_style_is_callers_witness : seqUdimParsed.paddingStyle = ImageSequence.HASH :=
  c2_style_is_callers (strL "/mock/path/file.<UDIM>.exr") ImageSequence.HASH seqUdimParsed
    (by decide)

lemma toMD_udim_excl {n : Str} {g : FrameG} {r : Str} (h : ¬ (toMD n g r).udim.isEmpty) :
    (toMD n g r).frame = [] ∧ (toMD n g r).token = [] ∧ (toMD n g r).padRun = []
    ∧ (toMD n g r).flame = [] ∧ (toMD n g r).hipFrame = [] := by
  cases g <;> simp [toMD, emptyMD] at h ⊢

lemma cpf_udim {s : ImageSequence} (h : s.paddingStyle = ImageSequence.UDIM) :
    createPaddingFormat s = setFrameTok s (strL ".<UDIM>") := by
  unfold createPaddingFormat
  rw [h, if_neg (by decide), if_neg (by decide), if_neg (by decide), if_neg (by decide), if_pos rfl]

lemma osJoin_eq_append (d b : Str) : ∃ x, osJoin d b = x ++ b := by
  unfold osJoin
  split_ifs with h1 h2 h3
  · exact ⟨[], rfl⟩
  · exact ⟨[], rfl⟩
  · exact ⟨d, rfl⟩
  · exact ⟨d ++ ['/'], by simp⟩

lemma substr_append_left {pat b : Str} (x : Str) (h : substr pat b) : substr pat (x ++ b) := by
  obtain ⟨u, v, hu⟩ := h
  exact ⟨x ++ u, v, by rw [← hu]; simp⟩

lemma substr_osJoin {pat d b : Str} (h : substr pat b) : substr pat (osJoin d b) := by
  obtain ⟨x, hx⟩ := osJoin_eq_append d b
  rw [hx]
  exact substr_append_left x h

/-- C3 counterexample input: a numeric sequence of padding 3 whose style is
switched to UDIM; its padding stays 3 instead of becoming 4. -/
theorem c3_counterexample :
    (ImageSequence.new (strL "/mock/file.101.exr") ImageSequence.HASH).map
      (fun s => (paddingStyleSet s ImageSequence.UDIM).padding) = some 3
    ∧ (3 : WithTop Nat) ≠ 4 := by
  decide

/-- Alternation exclusivity: a match with a nonempty udim group has all
other frame groups empty. -/
lemma matchFilename_udim_excl {b : Str} {m : MatchData} (h : matchFilename b = some m)
    (hu : ¬ m.udim.isEmpty) :
    m.frame = [] ∧ m.token = [] ∧ m.padRun = [] ∧ m.flame = [] ∧ m.hipFrame = [] := by
  obtain ⟨n, rest, hp, hr⟩ := matchFilename_inv h
  obtain ⟨t, hteq, hcase⟩ := matchRest_inv hr
  rcases hcase with ⟨g, r, ha, hm⟩ | ⟨ha, he, hm⟩
  · subst hm
    exact toMD_udim_excl hu
  · subst hm
    simp [emptyMD] at hu

/-- C3 (amended): parsing a literal UDIM token yields padding 4 and an empty
frame list; assigning the UDIM padding style to any sequence leaves its
padding unchanged while rewriting the frame token to the literal UDIM
token, which then appears in the rendered path. -/
theorem c3_udim_behaviour :
    (∀ (p st : Str) (m : MatchData), matchFilename (osBasename p) = some m →
      ¬ m.udim.isEmpty →
      (initSeq p st m).padding = 4 ∧ framesOf (initSeq p st m) = [])
    ∧ (∀ s : ImageSequence,
        (paddingStyleSet s ImageSequence.UDIM).padding = s.padding
        ∧ (paddingStyleSet s ImageSequence.UDIM).data.frame = strL ".<UDIM>"
        ∧ substr ImageSequence.UDIM (pathOf (paddingStyleSet s ImageSequence.UDIM))) := by
  constructor
  · intro p st m hm hu
    obtain ⟨h1, h2, h3, h4, h5⟩ := matchFilename_udim_excl hm hu
    unfold initSeq
    rw [if_neg (by simp [h1]), if_neg (by simp [h2]), if_neg (by simp [h3]),
      if_neg (by simp [h4]), if_neg (by simp [h5]), if_pos hu]
    refine ⟨paddingSet_padding _ _, ?_⟩
    rw [framesOf_paddingSet]
    rfl
  · intro s
    have hps : paddingStyleSet s ImageSequence.UDIM
        = setFrameTok { s with paddingStyle := ImageSequence.UDIM } (strL ".<UDIM>") := by
      unfold paddingStyleSet
      exact cpf_udim rfl
    rw [hps]
    refine ⟨rfl, rfl, ?_⟩
    unfold pathOf
    apply substr_osJoin
    unfold basenameOf
    have hdot : strL ".<UDIM>" = '.' :: ImageSequence.UDIM := by decide
    refine ⟨s.data.name ++ ['.'], s.data.ext, ?_⟩
    show s.data.name ++ ['.'] ++ ImageSequence.UDIM ++ s.data.ext
        = s.data.name ++ strL ".<UDIM>" ++ s.data.ext
    rw [hdot]
    simp

/-- Witness for C3: the parsed UDIM path has padding 4 and no frames, and
switching the parsed numeric sequence seq101 to the UDIM style keeps its
padding. -/
theorem c3_udim_behaviour_witness :
    ((initSeq (strL "/mock/path/file.<UDIM>.exr") ImageSequence.HASH mdUdim).padding = 4
      ∧ framesOf (initSeq (strL "/mock/path/file.<UDIM>.exr") ImageSequence.HASH mdUdim) = [])
    ∧ (paddingStyleSet seq101 ImageSequence.UDIM).padding = seq101.padding :=
  ⟨c3_udim_behaviour.1 (strL "/mock/path/file.<UDIM>.exr") ImageSequence.HASH mdUdim
      (by decide) (by decide),
    (c3_udim_behaviour.2 seq101).1⟩

/-- C9: the strict constructor fails, with the offending path inside the
error message, exactly when the basename does not match the grammar; the
factory returns none on exactly those inputs; and on matching inputs both
agree on the constructed sequence. -/
theorem c9_strict_vs_factory :
    ∀ p st : Str,
      ((∃ e, ImageSequence.construct p st = .error e ∧ substr p e)
        ↔ matchFilename (osBasename p) = none)
      ∧ (ImageSequence.new p st = none ↔ matchFilename (osBasename p) = none)
      ∧ (∀ s, ImageSequence.construct p st = .ok s ↔ ImageSequence.new p st = some s) := by
  intro p st
  cases hm : matchFilename (osBasename p) with
  | none =>
    refine ⟨⟨fun _ => rfl, fun _ => ?_⟩, ?_, ?_⟩
    · exact ⟨errMsg p, by simp [ImageSequence.construct, hm],
        ⟨strL "Input path \"", ['"'], rfl⟩⟩
    · simp [ImageSequence.new, hm]
    · intro s
      simp [ImageSequence.construct, ImageSequence.new, hm]
  | some m =>
    refine ⟨⟨?_, fun hn => by cases hn⟩, ?_, ?_⟩
    · rintro ⟨e, he, _⟩
      rw [ImageSequence.construct, hm] at he
      cases he
    · simp [ImageSequence.new, hm]
    · intro s
      simp [ImageSequence.construct, ImageSequence.new, hm]

/-! Digit-string lemmas: round trip between natDigits and numVal, and the
fractional-suffix surgery of _format_frame. -/

lemma dval_digitChar : ∀ m < 10, dval (Nat.digitChar m) = m := by decide

lemma isDigit_digitChar : ∀ m < 10, (Nat.digitChar m).isDigit = true := by decide

lemma numVal_append_singleton (l : Str) (c : Char) :
    numVal (l ++ [c]) = 10 * numVal l + dval c := by
  simp [numVal, List.foldl_append]

lemma natDigitsF_spec : ∀ (fu n : Nat), n < fu →
    numVal (natDigitsF fu n) = n ∧ natDigitsF fu n ≠ []
    ∧ ∀ c ∈ natDigitsF fu n, c.isDigit = true := by
  intro fu
  induction fu with
  | zero => intro n h; omega
  | succ fu ih =>
    intro n h
    rw [natDigitsF]
    by_cases h10 : n < 10
    · rw [if_pos h10]
      refine ⟨?_, by simp, ?_⟩
      · show numVal [Nat.digitChar n] = n
        have h1 : numVal [Nat.digitChar n] = dval (Nat.digitChar n) := by simp [numVal]
        rw [h1, dval_digitChar n h10]
      · intro c hc
        rw [List.mem_singleton.1 hc]
        exact isDigit_digitChar n h10
    · rw [if_neg h10]
      have hpos : 0 < n := by omega
      have hlt : n / 10 < n := Nat.div_lt_self hpos (by norm_num)
      have hdiv : n / 10 < fu := by omega
      obtain ⟨ih1, ih2, ih3⟩ := ih (n / 10) hdiv
      refine ⟨?_, by simp, ?_⟩
      · rw [numVal_append_singleton, ih1, dval_digitChar (n % 10) (Nat.mod_lt n (by norm_num))]
        omega
      · intro c hc
        rcases List.mem_append.1 hc with hc | hc
        · exact ih3 c hc
        · rw [List.mem_singleton.1 hc]
          exact isDigit_digitChar (n % 10) (Nat.mod_lt n (by norm_num))

lemma numVal_natDigits (n : Nat) : numVal (natDigits n) = n :=
  (natDigitsF_spec (n + 1) n (by omega)).1

lemma natDigits_ne_nil (n : Nat) : natDigits n ≠ [] :=
  (natDigitsF_spec (n + 1) n (by omega)).2.1

lemma natDigits_digits (n : Nat) : ∀ c ∈ natDigits n, c.isDigit = true :=
  (natDigitsF_spec (n + 1) n (by omega)).2.2

lemma digit_ne {c : Char} (h : c.isDigit = true) {d : Char} (hd : d.isDigit = false) :
    c ≠ d := by
  intro he
  rw [he, hd] at h
  cases h

lemma intVal_digits {s : Str} (h : ∀ c ∈ s, c.isDigit = true) : intVal s = (numVal s : Int) := by
  cases s with
  | nil => rfl
  | cons c cs =>
    rw [show intVal (c :: cs)
        = (if c = '-' then -(numVal cs : Int) else (numVal (c :: cs) : Int)) from rfl]
    rw [if_neg (digit_ne (h c (List.mem_cons_self c cs)) (by decide))]

lemma takeWhile_all {p : Char → Bool} : ∀ {l : Str}, (∀ c ∈ l, p c = true) → l.takeWhile p = l := by
  intro l
  induction l with
  | nil => intro _; rfl
  | cons c cs ih =>
    intro h
    rw [List.takeWhile_cons, if_pos (h c (List.mem_cons_self c cs))]
    rw [ih (fun x hx => h x (List.mem_cons_of_mem c hx))]

lemma floatSubF_nil (fu : Nat) : floatSubF fu [] = [] := by cases fu <;> rfl

lemma floatSubF_no_dot : ∀ (fu : Nat) (s : Str), (∀ c ∈ s, c ≠ '.') → floatSubF fu s = s := by
  intro fu
  induction fu with
  | zero => intro s _; rfl
  | succ fu ih =>
    intro s h
    cases s with
    | nil => rfl
    | cons c cs =>
      rw [show floatSubF (fu + 1) (c :: cs)
          = (if c = '.' then
              (let ds := cs.takeWhile Char.isDigit
               if ds.isEmpty then '.' :: floatSubF fu cs else floatSubF fu (cs.drop ds.length))
            else c :: floatSubF fu cs) from rfl]
      rw [if_neg (h c (List.mem_cons_self c cs))]
      rw [ih cs (fun x hx => h x (List.mem_cons_of_mem c hx))]

lemma floatSubF_strip :
    ∀ (d : Str) (fu : Nat) (fr : Str), (∀ c ∈ d, c ≠ '.') → fr ≠ [] →
      (∀ c ∈ fr, c.isDigit = true) → d.length + 1 + fr.length ≤ fu →
      floatSubF fu (d ++ '.' :: fr) = d := by
  intro d
  induction d with
  | nil =>
    intro fu fr _ hfr hdig hlen
    cases fu with
    | zero => omega
    | succ fu =>
      simp only [List.nil_append]
      rw [show floatSubF (fu + 1) ('.' :: fr)
          = (if ('.' : Char) = '.' then
              (let ds := fr.takeWhile Char.isDigit
               if ds.isEmpty then '.' :: floatSubF fu fr else floatSubF fu (fr.drop ds.length))
            else '.' :: floatSubF fu fr) from rfl]
      rw [if_pos rfl]
      simp only [takeWhile_all hdig]
      rw [if_neg (by simp [hfr]), List.drop_length, floatSubF_nil]
  | cons c d ih =>
    intro fu fr hd hfr hdig hlen
    cases fu with
    | zero => simp at hlen
    | succ fu =>
      rw [List.cons_append]
      rw [show floatSubF (fu + 1) (c :: (d ++ '.' :: fr))
          = (if c = '.' then
              (let ds := (d ++ '.' :: fr).takeWhile Char.isDigit
               if ds.isEmpty then '.' :: floatSubF fu (d ++ '.' :: fr)
               else floatSubF fu ((d ++ '.' :: fr).drop ds.length))
            else c :: floatSubF fu (d ++ '.' :: fr)) from rfl]
      rw [if_neg (hd c (List.mem_cons_self c d))]
      rw [ih fu fr (fun x hx => hd x (List.mem_cons_of_mem c hx)) hfr hdig (by simp at hlen ⊢; omega)]

lemma floatSearch_no_dot : ∀ (s : Str), (∀ c ∈ s, c ≠ '.') → floatSearch s = [] := by
  intro s
  induction s with
  | nil => intro _; rfl
  | cons c cs ih =>
    intro h
    rw [show floatSearch (c :: cs)
        = (if c = '.' then
            (let ds := cs.takeWhile Char.isDigit
             if ds.isEmpty then floatSearch cs else '.' :: ds)
          else floatSearch cs) from rfl]
    rw [if_neg (h c (List.mem_cons_self c cs))]
    exact ih (fun x hx => h x (List.mem_cons_of_mem c hx))

lemma floatSearch_strip :
    ∀ (d : Str) (fr : Str), (∀ c ∈ d, c ≠ '.') → fr ≠ [] → (∀ c ∈ fr, c.isDigit = true) →
      floatSearch (d ++ '.' :: fr) = '.' :: fr := by
  intro d
  induction d with
  | nil =>
    intro fr _ hfr hdig
    simp only [List.nil_append]
    rw [show floatSearch ('.' :: fr)
        = (if ('.' : Char) = '.' then
            (let ds := fr.takeWhile Char.isDigit
             if ds.isEmpty then floatSearch fr else '.' :: ds)
          else floatSearch fr) from rfl]
    rw [if_pos rfl]
    simp only [takeWhile_all hdig]
    rw [if_neg (by simp [hfr])]
  | cons c d ih =>
    intro fr hd hfr hdig
    rw [List.cons_append]
    rw [show floatSearch (c :: (d ++ '.' :: fr))
        = (if c = '.' then
            (let ds := (d ++ '.' :: fr).takeWhile Char.isDigit
             if ds.isEmpty then floatSearch (d ++ '.' :: fr) else '.' :: ds)
          else floatSearch (d ++ '.' :: fr)) from rfl]
    rw [if_neg (hd c (List.mem_cons_self c d))]
    exact ih fr (fun x hx => hd x (List.mem_cons_of_mem c hx)) hfr hdig

lemma natDigits_no_dot (n : Nat) : ∀ c ∈ natDigits n, c ≠ '.' :=
  fun c hc => digit_ne (natDigits_digits n c hc) (by decide)

lemma strFrame_nonneg {i : Int} (hi : 0 ≤ i) (fr : Str) :
    strFrame ⟨i, fr⟩ = natDigits i.toNat ++ (if fr.isEmpty then [] else '.' :: fr) := by
  show intStr i ++ (if fr.isEmpty then [] else '.' :: fr) = _
  unfold intStr
  rw [if_neg (not_lt.2 hi)]

lemma floatSub_strFrame {i : Int} (hi : 0 ≤ i) {fr : Str} (hfr : ∀ c ∈ fr, c.isDigit = true) :
    floatSub (strFrame ⟨i, fr⟩) = natDigits i.toNat := by
  rw [strFrame_nonneg hi fr]
  cases fr with
  | nil =>
    simp only [List.isEmpty_nil, if_pos, List.append_nil]
    exact floatSubF_no_dot _ _ (natDigits_no_dot i.toNat)
  | cons c0 fr0 =>
    rw [if_neg (by simp)]
    unfold floatSub
    refine floatSubF_strip (natDigits i.toNat) _ (c0 :: fr0) (natDigits_no_dot i.toNat)
      (by simp) hfr ?_
    simp only [List.length_append, List.length_cons]
    omega

lemma floatSearch_strFrame {i : Int} (hi : 0 ≤ i) {fr : Str} (hfr : ∀ c ∈ fr, c.isDigit = true) :
    floatSearch (strFrame ⟨i, fr⟩) = (if fr = [] then [] else '.' :: fr) := by
  rw [strFrame_nonneg hi fr]
  cases fr with
  | nil =>
    simp only [List.isEmpty_nil, if_pos, List.append_nil]
    exact floatSearch_no_dot _ (natDigits_no_dot i.toNat)
  | cons c0 fr0 =>
    rw [if_neg (by simp), if_neg (by simp)]
    exact floatSearch_strip (natDigits i.toNat) (c0 :: fr0) (natDigits_no_dot i.toNat)
      (by simp) hfr

/-- C8: the substituted frame text is the zero-padded shifted integer part
followed by the fractional digits verbatim: for every sequence, every
nonnegative frame with digit fractional part, and every offset, the
formatted text equals the padded integer part (shifted by the offset) with
the untouched fractional suffix appended; eval_at_frame is the offset-zero
case and get_paths formats each stored frame this way. -/
theorem c8_decimal_formatting (s : ImageSequence) (i : Int) (fr : Str) (off : Int) (p : Str)
    (hi : 0 ≤ i) (hfr : ∀ c ∈ fr, c.isDigit = true) :
    formatFrame s p ⟨i, fr⟩ off
      = pyReplace p FRAME_TOKEN
          (pyFormatInt s.padding (i + off) ++ (if fr = [] then [] else '.' :: fr))
    ∧ (s.padding ≠ 0 →
        evalAtFrame s ⟨i, fr⟩
          = pyReplace (fmtPath s) FRAME_TOKEN
              (pyFormatInt s.padding i ++ (if fr = [] then [] else '.' :: fr)))
    ∧ (framesOf s ≠ [] →
        getPaths s off = (framesOf s).map (fun f => formatFrame s (fmtPath s) f off)) := by
  have hmain : ∀ (q : Str) (o : Int), formatFrame s q ⟨i, fr⟩ o
      = pyReplace q FRAME_TOKEN
          (pyFormatInt s.padding (i + o) ++ (if fr = [] then [] else '.' :: fr)) := by
    intro q o
    have h1 : formatFrame s q ⟨i, fr⟩ o
        = pyReplace q FRAME_TOKEN
            (pyFormatInt s.padding (intVal (floatSub (strFrame ⟨i, fr⟩)) + o)
              ++ floatSearch (strFrame ⟨i, fr⟩)) := rfl
    rw [h1, floatSub_strFrame hi hfr, floatSearch_strFrame hi hfr,
      intVal_digits (natDigits_digits i.toNat), numVal_natDigits, Int.toNat_of_nonneg hi]
  refine ⟨hmain p off, ?_, ?_⟩
  · intro hpad
    unfold evalAtFrame
    rw [if_neg hpad, hmain (fmtPath s) 0, add_zero]
  · intro hne
    unfold getPaths
    rw [if_neg hne]

/-- Witness for C8: the decimal frame 17.90 at padding 4 renders with the
integer part padded to 0017 and the fractional digits 90 untouched. -/
theorem c8_decimal_formatting_witness :
    evalAtFrame seqSkin ⟨17, strL "90"⟩ = strL "/mock/path/skin_bgeo_v023.0017.90.bgeo.sc" := by
  have h := (c8_decimal_formatting seqSkin 17 (strL "90") 0 (fmtPath seqSkin)
    (by decide) (by decide)).2.1 (by decide)
  exact h.trans (by decide)

/-! Every successful frame alternative ends at a valid extension. -/

lemma withExt_inv {g : FrameG} {r : Str} {x : FrameG × Str} (h : withExt g r = some x) :
    x = (g, r) ∧ extMatch r = true := by
  unfold withExt at h
  split_ifs at h with he
  exact ⟨(Option.some.inj h).symm, he⟩

lemma numFloatArm_ext {d1 r1 : Str} {x : FrameG × Str} (h : numFloatArm d1 r1 = some x) :
    extMatch x.2 = true := by
  unfold numFloatArm at h
  split at h
  · exact Option.noConfusion h
  · split_ifs at h
    obtain ⟨rfl, he⟩ := withExt_inv h
    exact he

lemma altNum_ext {t : Str} {x : FrameG × Str} (h : altNum t = some x) : extMatch x.2 = true := by
  unfold altNum at h
  split at h
  · next heq =>
    obtain rfl := Option.some.inj h
    exact numFloatArm_ext heq
  · obtain ⟨rfl, he⟩ := withExt_inv h
    exact he

lemma altPrintf_ext {cs : Str} {x : FrameG × Str} (h : altPrintf cs = some x) :
    extMatch x.2 = true := by
  unfold altPrintf at h
  split at h
  · exact Option.noConfusion h
  · split_ifs at h
    split at h
    · exact Option.noConfusion h
    · split_ifs at h
      obtain ⟨rfl, he⟩ := withExt_inv h
      exact he

lemma altUdim_ext {t : Str} {x : FrameG × Str} (h : altUdim t = some x) : extMatch x.2 = true := by
  unfold altUdim at h
  split_ifs at h
  obtain ⟨rfl, he⟩ := withExt_inv h
  exact he

lemma altFlame_ext {cs : Str} {x : FrameG × Str} (h : altFlame cs = some x) :
    extMatch x.2 = true := by
  unfold altFlame at h
  split_ifs at h
  split at h
  · exact Option.noConfusion h
  · split_ifs at h
    split at h
    · exact Option.noConfusion h
    · split_ifs at h
      obtain ⟨rfl, he⟩ := withExt_inv h
      exact he

lemma altPad_ext {t : Str} {x : FrameG × Str} (h : altPad t = some x) : extMatch x.2 = true := by
  unfold altPad at h
  obtain ⟨rfl, he⟩ := withExt_inv h
  exact he

lemma altHou_ext {cs : Str} {x : FrameG × Str} (h : altHou cs = some x) : extMatch x.2 = true := by
  unfold altHou at h
  split_ifs at h
  split at h
  · exact Option.noConfusion h
  · split_ifs at h
    · obtain ⟨rfl, he⟩ := withExt_inv h
      exact he
    · obtain ⟨rfl, he⟩ := withExt_inv h
      exact he

lemma tryAltExt_ext {t : Str} {x : FrameG × Str} (h : tryAltExt t = some x) :
    extMatch x.2 = true := by
  cases t with
  | nil => exact Option.noConfusion h
  | cons c cs =>
    rw [show tryAltExt (c :: cs)
        = (if c.isDigit then altNum (c :: cs)
           else if c = '%' then altPrintf cs
           else if c = '<' then altUdim (c :: cs)
           else if c = '[' then altFlame cs
           else if isPadChar c then altPad (c :: cs)
           else if c = '$' then altHou cs
           else none) from rfl] at h
    split_ifs at h
    · exact altNum_ext h
    · exact altPrintf_ext h
    · exact altUdim_ext h
    · exact altFlame_ext h
    · exact altPad_ext h
    · exact altHou_ext h

lemma takeWhile_append_drop (p : Char → Bool) :
    ∀ l : Str, l.takeWhile p ++ l.drop (l.takeWhile p).length = l := by
  intro l
  induction l with
  | nil => rfl
  | cons c cs ih =>
    rw [List.takeWhile_cons]
    by_cases hp : p c = true
    · rw [if_pos hp]
      simpa using ih
    · rw [if_neg hp]
      simp

lemma parseName_inv {b n rest : Str} (h : parseName b = some (n, rest)) :
    b = n ++ rest ∧ ValidName n := by
  cases b with
  | nil => exact Option.noConfusion h
  | cons c cs =>
    rw [show parseName (c :: cs)
        = (if c = '.' then
            (if (cs.takeWhile (fun x => x ≠ '.')).isEmpty then none
             else some ('.' :: cs.takeWhile (fun x => x ≠ '.'),
               cs.drop (cs.takeWhile (fun x => x ≠ '.')).length))
          else
            (if ((c :: cs).takeWhile (fun x => x ≠ '.')).isEmpty then none
             else some ((c :: cs).takeWhile (fun x => x ≠ '.'),
               (c :: cs).drop ((c :: cs).takeWhile (fun x => x ≠ '.')).length))) from rfl] at h
    by_cases hc : c = '.'
    · rw [if_pos hc] at h
      split_ifs at h with hr
      obtain ⟨h1, h2⟩ := Prod.mk.injEq .. ▸ Option.some.inj h
      subst hc
      constructor
      · rw [← h1, ← h2]
        simp only [List.cons_append, List.cons.injEq, true_and]
        exact (takeWhile_append_drop _ cs).symm
      · refine ⟨['.'], cs.takeWhile (fun x => x ≠ '.'), Or.inr rfl, ?_, ?_, by rw [← h1]; rfl⟩
        · intro hnil
          rw [hnil] at hr
          exact hr rfl
        · intro x hx
          have := List.mem_takeWhile_imp hx
          simpa using this
    · rw [if_neg hc] at h
      split_ifs at h with hr
      obtain ⟨h1, h2⟩ := Prod.mk.injEq .. ▸ Option.some.inj h
      constructor
      · rw [← h1, ← h2]
        exact (takeWhile_append_drop _ (c :: cs)).symm
      · refine ⟨[], (c :: cs).takeWhile (fun x => x ≠ '.'), Or.inl rfl, ?_, ?_, by rw [← h1]; rfl⟩
        · intro hnil
          rw [hnil] at hr
          exact hr rfl
        · intro x hx
          have := List.mem_takeWhile_imp hx
          simpa using this

lemma takeWhile_append_stop {p : Char → Bool} {x : Char} :
    ∀ {l : Str} (r : Str), (∀ c ∈ l, p c = true) → p x = false →
      (l ++ x :: r).takeWhile p = l := by
  intro l
  induction l with
  | nil =>
    intro r _ hx
    rw [List.nil_append, List.takeWhile_cons, if_neg (by simp [hx])]
  | cons c cs ih =>
    intro r hl hx
    rw [List.cons_append, List.takeWhile_cons, if_pos (hl c (List.mem_cons_self c cs))]
    rw [ih r (fun y hy => hl y (List.mem_cons_of_mem c hy)) hx]

/-- Re-running the name grammar on a parsed name followed by a dot-opened
remainder recovers exactly the name. -/
lemma parseName_reconstruct {n : Str} (hn : ValidName n) (w : Str) :
    parseName (n ++ '.' :: w) = some (n, '.' :: w) := by
  obtain ⟨pre, run, hpre, hrun, hnod, rfl⟩ := hn
  have hrw : run ++ '.' :: w ≠ [] := by simp
  have htake : (run ++ '.' :: w).takeWhile (fun x => x ≠ '.') = run :=
    takeWhile_append_stop w (fun c hc => by simpa using hnod c hc) (by simp)
  rcases hpre with rfl | rfl
  · simp only [List.nil_append]
    cases run with
    | nil => exact absurd rfl hrun
    | cons c0 cs0 =>
      have hc0 : c0 ≠ '.' := hnod c0 (List.mem_cons_self c0 cs0)
      rw [List.cons_append]
      rw [show parseName (c0 :: (cs0 ++ '.' :: w))
          = (if c0 = '.' then
              (if ((cs0 ++ '.' :: w).takeWhile (fun x => x ≠ '.')).isEmpty then none
               else some ('.' :: (cs0 ++ '.' :: w).takeWhile (fun x => x ≠ '.'),
                 (cs0 ++ '.' :: w).drop ((cs0 ++ '.' :: w).takeWhile (fun x => x ≠ '.')).length))
            else
              (if ((c0 :: (cs0 ++ '.' :: w)).takeWhile (fun x => x ≠ '.')).isEmpty then none
               else some ((c0 :: (cs0 ++ '.' :: w)).takeWhile (fun x => x ≠ '.'),
                 (c0 :: (cs0 ++ '.' :: w)).drop
                   ((c0 :: (cs0 ++ '.' :: w)).takeWhile (fun x => x ≠ '.')).length))) from rfl]
      rw [if_neg hc0]
      have htake2 : (c0 :: (cs0 ++ '.' :: w)).takeWhile (fun x => x ≠ '.') = c0 :: cs0 := by
        rw [show c0 :: (cs0 ++ '.' :: w) = (c0 :: cs0) ++ '.' :: w from rfl]
        exact takeWhile_append_stop w (fun c hc => by simpa using hnod c hc) (by simp)
      rw [htake2, if_neg (by simp)]
      rw [show c0 :: (cs0 ++ '.' :: w) = (c0 :: cs0) ++ '.' :: w from rfl]
      rw [List.drop_left]
  · simp only [List.singleton_append, List.cons_append, List.nil_append]
    rw [show parseName ('.' :: (run ++ '.' :: w))
        = (if ('.' : Char) = '.' then
            (if ((run ++ '.' :: w).takeWhile (fun x => x ≠ '.')).isEmpty then none
             else some ('.' :: (run ++ '.' :: w).takeWhile (fun x => x ≠ '.'),
               (run ++ '.' :: w).drop ((run ++ '.' :: w).takeWhile (fun x => x ≠ '.')).length))
          else
            (if (('.' :: (run ++ '.' :: w)).takeWhile (fun x => x ≠ '.')).isEmpty then none
             else some (('.' :: (run ++ '.' :: w)).takeWhile (fun x => x ≠ '.'),
               ('.' :: (run ++ '.' :: w)).drop
                 (('.' :: (run ++ '.' :: w)).takeWhile (fun x => x ≠ '.')).length))) from rfl]
    rw [if_pos rfl, htake, if_neg (by simp [hrun]), List.drop_left]

lemma getLast?_mem {l : Str} {a : Char} (h : l.getLast? = some a) : a ∈ l := by
  obtain ⟨hne, rfl⟩ := List.mem_getLast?_eq_getLast (l := l) (x := a) (by rw [h]; rfl)
  exact List.getLast_mem hne

lemma allslash_getLast {d : Str} (hne : d ≠ []) (hall : ∀ c ∈ d, c = '/') :
    d.getLast? = some '/' := by
  rw [List.getLast?_eq_getLast_of_ne_nil hne]
  exact congrArg some (hall _ (List.getLast_mem hne))

lemma head?_dropWhile_neg (p : Char → Bool) :
    ∀ (l : Str) (c : Char), (l.dropWhile p).head? = some c → p c = false := by
  intro l
  induction l with
  | nil => intro c h; cases h
  | cons a as ih =>
    intro c h
    by_cases hp : p a = true
    · rw [List.dropWhile_cons_of_pos hp] at h
      exact ih c h
    · rw [List.dropWhile_cons_of_neg hp] at h
      obtain rfl := Option.some.inj h
      exact Bool.eq_false_iff.2 hp

lemma dropWhile_append_all {p : Char → Bool} :
    ∀ {l : Str} (r : Str), (∀ c ∈ l, p c = true) → (l ++ r).dropWhile p = r.dropWhile p := by
  intro l
  induction l with
  | nil => intro r _; rfl
  | cons a as ih =>
    intro r h
    rw [List.cons_append, List.dropWhile_cons_of_pos (h a (List.mem_cons_self a as))]
    exact ih r (fun c hc => h c (List.mem_cons_of_mem a hc))

lemma osDirname_eq (p : Str) : osDirname p =
    (if ((p.reverse.dropWhile (fun c => c ≠ '/')).reverse).isEmpty then []
     else if ((p.reverse.dropWhile (fun c => c ≠ '/')).reverse).all (fun c => c = '/') then
       (p.reverse.dropWhile (fun c => c ≠ '/')).reverse
     else ((((p.reverse.dropWhile (fun c => c ≠ '/')).reverse).reverse.dropWhile
       (fun c => c = '/')).reverse)) := rfl

lemma osDirname_dirOK (p : Str) : dirOK (osDirname p) := by
  rw [osDirname_eq]
  split_ifs with h1 h2
  · exact Or.inl rfl
  · refine Or.inr (Or.inl ?_)
    intro c hc
    simpa using List.all_eq_true.1 h2 c hc
  · refine Or.inr (Or.inr ?_)
    rw [List.getLast?_reverse]
    intro hcon
    have := head?_dropWhile_neg (fun c => c = '/') _ _ hcon
    simp at this

lemma osJoin_eq_joinPref {d b : Str} (hb : b.head? ≠ some '/') : osJoin d b = joinPref d ++ b := by
  unfold osJoin joinPref
  rw [if_neg hb]
  split_ifs with h1 h2
  · simp
  · rfl
  · simp

lemma joinPref_getLast {d : Str} (hd : d ≠ []) : (joinPref d).getLast? = some '/' := by
  unfold joinPref
  rw [if_neg (by simpa using hd)]
  split_ifs with h2
  · exact h2
  · rw [← List.head?_reverse, List.reverse_append]
    rfl

lemma joinPref_ne_nil {d : Str} (hd : d ≠ []) : joinPref d ≠ [] := by
  unfold joinPref
  rw [if_neg (by simpa using hd)]
  split_ifs with h2
  · exact hd
  · simp

lemma joinPref_inj {d1 d2 : Str} (h1 : dirOK d1) (h2 : dirOK d2)
    (he : joinPref d1 = joinPref d2) : d1 = d2 := by
  by_cases e1 : d1 = []
  · by_cases e2 : d2 = []
    · rw [e1, e2]
    · exfalso
      apply joinPref_ne_nil e2
      rw [← he, e1]
      simp [joinPref]
  · by_cases e2 : d2 = []
    · exfalso
      apply joinPref_ne_nil e1
      rw [he, e2]
      simp [joinPref]
    · have hd1 : joinPref d1 = if d1.getLast? = some '/' then d1 else d1 ++ ['/'] := by
        unfold joinPref
        rw [if_neg (by simpa using e1)]
      have hd2 : joinPref d2 = if d2.getLast? = some '/' then d2 else d2 ++ ['/'] := by
        unfold joinPref
        rw [if_neg (by simpa using e2)]
      rw [hd1, hd2] at he
      by_cases g1 : d1.getLast? = some '/' <;> by_cases g2 : d2.getLast? = some '/'
      · rw [if_pos g1, if_pos g2] at he
        exact he
      · rw [if_pos g1, if_neg g2] at he
        exfalso
        rcases h1 with rfl | hall | hlast
        · exact e1 rfl
        · have hall2 : ∀ c ∈ d2 ++ ['/'], c = '/' := by
            rw [← he]
            exact hall
          exact g2 (allslash_getLast e2 (fun c hc => hall2 c (List.mem_append_left _ hc)))
        · exact hlast g1
      · rw [if_neg g1, if_pos g2] at he
        exfalso
        rcases h2 with rfl | hall | hlast
        · exact e2 rfl
        · have hall1 : ∀ c ∈ d1 ++ ['/'], c = '/' := by
            rw [he]
            exact hall
          exact g1 (allslash_getLast e1 (fun c hc => hall1 c (List.mem_append_left _ hc)))
        · exact hlast g2
      · rw [if_neg g1, if_neg g2] at he
        exact List.append_cancel_right he

lemma osBasename_no_slash (p : Str) : ∀ c ∈ osBasename p, c ≠ '/' := by
  intro c hc
  unfold osBasename at hc
  rw [List.mem_reverse] at hc
  have := List.mem_takeWhile_imp hc
  simpa using this

lemma head?_eq_cons {l : Str} {a : Char} (h : l.head? = some a) : ∃ t, l = a :: t := by
  cases l with
  | nil => cases h
  | cons x xs => exact ⟨xs, by rw [Option.some.inj h]⟩

lemma osBasename_join {d b : Str} (hb : ∀ c ∈ b, c ≠ '/') :
    osBasename (joinPref d ++ b) = b := by
  unfold osBasename
  rw [List.reverse_append]
  by_cases hd : d = []
  · rw [hd]
    show ((b.reverse ++ []).takeWhile _).reverse = b
    rw [List.append_nil, takeWhile_all (by intro c hc; simp [hb c (List.mem_reverse.1 hc)]),
      List.reverse_reverse]
  · obtain ⟨t, ht⟩ := head?_eq_cons (by rw [List.head?_reverse]; exact joinPref_getLast hd)
    rw [ht, takeWhile_append_stop (l := b.reverse) t
      (by intro c hc; simp [hb c (List.mem_reverse.1 hc)]) (by simp), List.reverse_reverse]

lemma osDirname_join {d b : Str} (hb : ∀ c ∈ b, c ≠ '/') (hd : dirOK d) :
    osDirname (joinPref d ++ b) = d := by
  rw [osDirname_eq, List.reverse_append]
  have hskip : ((b.reverse ++ (joinPref d).reverse).dropWhile (fun c => c ≠ '/'))
      = (joinPref d).reverse.dropWhile (fun c => c ≠ '/') :=
    dropWhile_append_all _ (by intro c hc; simp [hb c (List.mem_reverse.1 hc)])
  by_cases hdn : d = []
  · rw [hdn] at hskip ⊢
    rw [hskip]
    simp [joinPref]
  · obtain ⟨t, ht⟩ := head?_eq_cons (by rw [List.head?_reverse]; exact joinPref_getLast hdn)
    have hstop : (joinPref d).reverse.dropWhile (fun c => c ≠ '/') = (joinPref d).reverse := by
      rw [ht, List.dropWhile_cons_of_neg (by simp)]
    rw [hskip, hstop, List.reverse_reverse]
    rw [if_neg (by simpa using joinPref_ne_nil hdn)]
    rcases hd with rfl | hall | hlast
    · exact absurd rfl hdn
    · have hjall : ∀ c ∈ joinPref d, c = '/' := by
        intro c hc
        unfold joinPref at hc
        rw [if_neg (by simpa using hdn), if_pos (allslash_getLast hdn hall)] at hc
        exact hall c hc
      rw [if_pos (List.all_eq_true.2 (fun c hc => by simpa using hjall c hc))]
      unfold joinPref
      rw [if_neg (by simpa using hdn), if_pos (allslash_getLast hdn hall)]
    · have hjp : joinPref d = d ++ ['/'] := by
        unfold joinPref
        rw [if_neg (by simpa using hdn), if_neg hlast]
      have hnall : ¬ ((joinPref d).all (fun c => c = '/')) = true := by
        intro hcon
        refine hlast ?_
        rw [List.getLast?_eq_getLast_of_ne_nil hdn]
        have := List.all_eq_true.1 (hjp ▸ hcon) (d.getLast hdn)
          (List.mem_append_left _ (List.getLast_mem hdn))
        simpa using this
      rw [if_neg hnall, hjp, List.reverse_append]
      show ((['/'].reverse ++ d.reverse).dropWhile _).reverse = d
      rw [List.reverse_singleton]
      rw [show ((['/'] ++ d.reverse).dropWhile (fun c => c = '/'))
          = d.reverse.dropWhile (fun c => c = '/') from
        dropWhile_append_all _ (by intro c hc; simpa using List.mem_singleton.1 hc)]
      have : d.reverse.dropWhile (fun c => c = '/') = d.reverse := by
        cases hr : d.reverse with
        | nil => rfl
        | cons x xs =>
          rw [List.dropWhile_cons_of_neg]
          have : d.getLast? = some x := by
            rw [← List.head?_reverse, hr]
            rfl
          intro hcon
          exact hlast (by rw [this]; simpa using hcon)
      rw [this, List.reverse_reverse]

/-! Replacement at a unique occurrence. -/

lemma pyRepCore_zero (pat rep : Str) (s : Str) : pyRepCore pat rep 0 s = s := rfl

lemma pyRepCore_cons_eq (pat rep : Str) (fu : Nat) (c : Char) (cs : Str) :
    pyRepCore pat rep (fu + 1) (c :: cs)
      = (if pat.isPrefixOf (c :: cs) then rep ++ pyRepCore pat rep fu ((c :: cs).drop pat.length)
         else c :: pyRepCore pat rep fu cs) := rfl

lemma pyRepCore_no_occ {pat rep : Str} (hpat : pat ≠ []) :
    ∀ (fu : Nat) (s : Str), (∀ q, ¬ pat.isPrefixOf (s.drop q) = true) →
      pyRepCore pat rep fu s = s := by
  intro fu
  induction fu with
  | zero => intro s _; rfl
  | succ fu ih =>
    intro s hno
    cases s with
    | nil => rfl
    | cons c cs =>
      rw [pyRepCore_cons_eq, if_neg (by simpa using hno 0)]
      rw [ih cs (fun q => hno (q + 1))]

lemma isPrefixOf_append_self (pat s : Str) : pat.isPrefixOf (pat ++ s) = true := by
  rw [List.isPrefixOf_iff_prefix]
  exact ⟨s, rfl⟩

lemma drop_add_append (l r : Str) (q : Nat) : (l ++ r).drop (l.length + q) = r.drop q := by
  rw [← List.drop_drop, List.drop_left]

lemma pyRepCore_unique {pat rep : Str} (hpat : pat ≠ []) :
    ∀ (P : Str) (fu : Nat) (S : Str),
      (∀ q, pat.isPrefixOf ((P ++ pat ++ S).drop q) = true → q = P.length) →
      (P ++ pat ++ S).length ≤ fu →
      pyRepCore pat rep fu (P ++ pat ++ S) = P ++ rep ++ S := by
  intro P
  induction P with
  | nil =>
    intro fu S huniq hlen
    simp only [List.nil_append] at huniq hlen ⊢
    cases fu with
    | zero =>
      exfalso
      cases pat with
      | nil => exact hpat rfl
      | cons a pa => simp at hlen
    | succ fu =>
      have hnil : ∀ q, ¬ pat.isPrefixOf (S.drop q) = true := by
        intro q hcon
        have hq := huniq (pat.length + q) (by rw [drop_add_append]; exact hcon)
        simp only [List.length_nil] at hq
        have : pat.length = 0 := by omega
        exact hpat (List.length_eq_zero.1 this)
      cases hp : pat with
      | nil => exact absurd hp hpat
      | cons a pa =>
        subst hp
        rw [show (a :: pa) ++ S = a :: (pa ++ S) from rfl, pyRepCore_cons_eq]
        rw [if_pos (show (a :: pa).isPrefixOf (a :: (pa ++ S)) = true from
          isPrefixOf_append_self (a :: pa) S)]
        rw [show (a :: (pa ++ S)).drop (a :: pa).length = S from List.drop_left (a :: pa) S]
        rw [pyRepCore_no_occ (by simp) fu S (fun q => hnil q)]
  | cons c P ih =>
    intro fu S huniq hlen
    cases fu with
    | zero => simp at hlen
    | succ fu =>
      have hform : (c :: P) ++ pat ++ S = c :: (P ++ pat ++ S) := by simp
      rw [hform, pyRepCore_cons_eq]
      have hnot : ¬ pat.isPrefixOf (c :: (P ++ pat ++ S)) = true := by
        intro hcon
        have := huniq 0 (by rw [List.drop_zero, hform]; exact hcon)
        simp at this
      rw [if_neg hnot]
      have huniq2 : ∀ q, pat.isPrefixOf ((P ++ pat ++ S).drop q) = true → q = P.length := by
        intro q hq
        have := huniq (q + 1) (by rw [hform, List.drop_succ_cons]; exact hq)
        simpa using this
      have hlen2 : (P ++ pat ++ S).length ≤ fu := by
        rw [hform] at hlen
        simp only [List.length_cons] at hlen
        omega
      rw [ih fu S huniq2 hlen2]
      rfl

lemma pyReplace_unique {pat rep P S : Str} (hpat : pat ≠ [])
    (huniq : ∀ q, pat.isPrefixOf ((P ++ pat ++ S).drop q) = true → q = P.length) :
    pyReplace (P ++ pat ++ S) pat rep = P ++ rep ++ S := by
  unfold pyReplace
  rw [if_neg (by simpa using hpat)]
  exact pyRepCore_unique hpat P (P ++ pat ++ S).length S huniq le_rfl

lemma uniqOcc_spec {s pat : Str} {p0 : Nat} (hpat : pat ≠ []) (h : uniqOcc s pat p0 = true) :
    ∀ q, pat.isPrefixOf (s.drop q) = true → q = p0 := by
  intro q hq
  by_cases hle : q ≤ s.length
  · have hall := List.all_eq_true.1 h q (List.mem_range.2 (by omega))
    rw [hq] at hall
    simpa using hall
  · exfalso
    have hdrop : s.drop q = [] := List.drop_eq_nil_of_le (by omega)
    rw [hdrop] at hq
    rw [List.isPrefixOf_iff_prefix] at hq
    exact hpat (List.prefix_nil.1 hq)

/-! Shape facts about parsed sequences, and the abstract path under a
unique frame-token occurrence. -/

lemma toMD_name (n : Str) (g : FrameG) (r : Str) : (toMD n g r).name = n := by
  cases g <;> rfl

lemma toMD_ext (n : Str) (g : FrameG) (r : Str) : (toMD n g r).ext = r := by
  cases g <;> rfl

lemma new_inv {p st : Str} {s : ImageSequence} (h : ImageSequence.new p st = some s) :
    ∃ m, matchFilename (osBasename p) = some m ∧ s = initSeq p st m := by
  unfold ImageSequence.new at h
  cases hm : matchFilename (osBasename p) with
  | none => rw [hm] at h; cases h
  | some m =>
    rw [hm] at h
    exact ⟨m, rfl, (Option.some.inj h).symm⟩

lemma new_shape {p st : Str} {s : ImageSequence} (h : ImageSequence.new p st = some s) :
    s.dirname = osDirname p
    ∧ ValidName s.data.name
    ∧ (∀ c ∈ s.data.name, c ≠ '/')
    ∧ extMatch s.data.ext = true := by
  obtain ⟨m, hm, rfl⟩ := new_inv h
  obtain ⟨n, rest, hp, hr⟩ := matchFilename_inv hm
  obtain ⟨hdec, hvn⟩ := parseName_inv hp
  obtain ⟨t, hteq, hcase⟩ := matchRest_inv hr
  have hname : m.name = n := by
    rcases hcase with ⟨g, r, ha, rfl⟩ | ⟨ha, he, rfl⟩
    · exact toMD_name n g r
    · rfl
  have hext : extMatch m.ext = true := by
    rcases hcase with ⟨g, r, ha, rfl⟩ | ⟨ha, he, rfl⟩
    · rw [toMD_ext]
      exact tryAltExt_ext ha
    · exact he
  refine ⟨initSeq_dirname p st m, ?_, ?_, ?_⟩
  · rw [initSeq_name, hname]
    exact hvn
  · rw [initSeq_name, hname]
    intro c hc
    exact osBasename_no_slash p c (hdec ▸ List.mem_append_left rest hc)
  · rw [initSeq_ext]
    exact hext

lemma ValidName_ne_nil {n : Str} (h : ValidName n) : n ≠ [] := by
  obtain ⟨pre, run, hpre, hrun, _, rfl⟩ := h
  intro hcon
  exact hrun (List.append_eq_nil.1 hcon).2

lemma pathOf_decomp {s : ImageSequence} (hn : s.data.name ≠ [])
    (hns : ∀ c ∈ s.data.name, c ≠ '/') :
    pathOf s = (joinPref s.dirname ++ s.data.name) ++ s.data.frame ++ s.data.ext := by
  unfold pathOf basenameOf
  rw [osJoin_eq_joinPref ?_]
  · simp [List.append_assoc]
  · cases hh : s.data.name with
    | nil => exact absurd hh hn
    | cons c cs =>
      intro hcon
      simp only [hh, List.cons_append, List.head?_cons, Option.some.injEq] at hcon
      exact hns c (hh ▸ List.mem_cons_self c cs) hcon

lemma abstractPath_unique {s : ImageSequence} (hfr : s.data.frame ≠ [])
    (hn : s.data.name ≠ []) (hns : ∀ c ∈ s.data.name, c ≠ '/')
    (hu : uniqOcc (pathOf s) s.data.frame (tokPos s) = true) :
    abstractPath s = (joinPref s.dirname ++ s.data.name) ++ ('.' :: FRAME_TOKEN) ++ s.data.ext := by
  unfold abstractPath
  rw [pathOf_decomp hn hns]
  apply pyReplace_unique hfr
  intro q hq
  have hq2 := uniqOcc_spec hfr hu q (by rw [pathOf_decomp hn hns]; exact hq)
  rw [hq2, tokPos, List.length_append]

/-- C5 counterexample input: two paths with the same directory, name and
extension, differing only in the concrete frame number, whose parsed
sequences nevertheless compare unequal because the hash token also occurs
inside the hidden-file name and str.replace rewrites every occurrence. -/
theorem c5_counterexample :
    (ImageSequence.new (strL "/m/.###foo.123.exr") ImageSequence.HASH).map (fun a =>
      (ImageSequence.new (strL "/m/.###foo.9999.exr") ImageSequence.HASH).map (fun b =>
        (decide (a.dirname = b.dirname ∧ a.data.name = b.data.name ∧ a.data.ext = b.data.ext),
         decide (seqEq a b))))
    = some (some (true, false)) := by
  decide

/-- C5 (amended): for parsed sequences carrying a frame token that occurs in
the rendered path only at the frame position, equality is abstract-path
equality: with equal names and extensions, equal directories give equal
sequences whatever the frame number, padding width or padding style, and
different directories give unequal sequences. -/
theorem c5_abstract_equality :
    ∀ (p1 p2 st1 st2 : Str) (s1 s2 : ImageSequence),
      ImageSequence.new p1 st1 = some s1 → ImageSequence.new p2 st2 = some s2 →
      s1.data.frame ≠ [] → s2.data.frame ≠ [] →
      uniqOcc (pathOf s1) s1.data.frame (tokPos s1) = true →
      uniqOcc (pathOf s2) s2.data.frame (tokPos s2) = true →
      s1.data.name = s2.data.name → s1.data.ext = s2.data.ext →
      ((s1.dirname = s2.dirname → seqEq s1 s2)
        ∧ (s1.dirname ≠ s2.dirname → ¬ seqEq s1 s2)) := by
  intro p1 p2 st1 st2 s1 s2 h1 h2 hf1 hf2 hu1 hu2 hname hext
  obtain ⟨hd1, hv1, hs1, _⟩ := new_shape h1
  obtain ⟨hd2, hv2, hs2, _⟩ := new_shape h2
  have ha1 := abstractPath_unique hf1 (ValidName_ne_nil hv1) hs1 hu1
  have ha2 := abstractPath_unique hf2 (ValidName_ne_nil hv2) hs2 hu2
  constructor
  · intro hdir
    unfold seqEq
    rw [ha1, ha2, hname, hext, hdir]
  · intro hdir hcon
    unfold seqEq at hcon
    rw [ha1, ha2, hname, hext] at hcon
    simp only [List.append_assoc] at hcon
    have := List.append_cancel_right hcon
    refine hdir (joinPref_inj ?_ ?_ this)
    · rw [hd1]
      exact osDirname_dirOK p1
    · rw [hd2]
      exact osDirname_dirOK p2

/-- Witness for C5: the spec instances; same directory with frames 101 and
222 compare equal, and dropping the path component makes them unequal. -/
theorem c5_abstract_equality_witness :
    seqEq seqNameA seqNameB ∧ ¬ seqEq seqNameA seqOtherDir :=
  ⟨(c5_abstract_equality (strL "/mock/path/file_name.101.exr")
      (strL "/mock/path/file_name.222.exr") ImageSequence.HASH ImageSequence.HASH
      seqNameA seqNameB (by decide) (by decide) (by decide) (by decide)
      (by decide) (by decide) (by decide) (by decide)).1 (by decide),
   (c5_abstract_equality (strL "/mock/path/file_name.101.exr")
      (strL "/mock/file_name.101.exr") ImageSequence.HASH ImageSequence.HASH
      seqNameA seqOtherDir (by decide) (by decide) (by decide) (by decide)
      (by decide) (by decide) (by decide) (by decide)).2 (by decide)⟩

/-! Helpers for the padding-style round trip (C1). -/

lemma extMatch_head {e : Str} (h : extMatch e = true) : ∃ cs, e = '.' :: cs := by
  cases e with
  | nil => cases h
  | cons c cs =>
    rw [show extMatch (c :: cs)
        = (if c = '.' then
            (if (cs.takeWhile isWordChar).isEmpty then false
             else
               match cs.drop (cs.takeWhile isWordChar).length with
               | [] => true
               | c2 :: cs2 =>
                 if c2 = '.' then
                   !(cs2.takeWhile isWordChar).isEmpty && (cs2.drop (cs2.takeWhile isWordChar).length).isEmpty
                 else false)
          else false) from rfl] at h
    by_cases hc : c = '.'
    · exact ⟨cs, by rw [hc]⟩
    · rw [if_neg hc] at h
      cases h

lemma extMatch_chars {e : Str} (h : extMatch e = true) :
    ∀ c ∈ e, isWordChar c = true ∨ c = '.' := by
  obtain ⟨cs, rfl⟩ := extMatch_head h
  rw [show extMatch ('.' :: cs)
      = (if ('.' : Char) = '.' then
          (if (cs.takeWhile isWordChar).isEmpty then false
           else
             match cs.drop (cs.takeWhile isWordChar).length with
             | [] => true
             | c2 :: cs2 =>
               if c2 = '.' then
                 !(cs2.takeWhile isWordChar).isEmpty && (cs2.drop (cs2.takeWhile isWordChar).length).isEmpty
               else false)
        else false) from rfl, if_pos rfl] at h
  split_ifs at h with hw1
  intro c hc
  rcases List.mem_cons.1 hc with rfl | hc2
  · exact Or.inr rfl
  · have hdecomp : cs = cs.takeWhile isWordChar ++ cs.drop (cs.takeWhile isWordChar).length :=
      (takeWhile_append_drop isWordChar cs).symm
    rcases List.mem_append.1 (hdecomp ▸ hc2) with hmem | hmem
    · exact Or.inl (List.mem_takeWhile_imp hmem)
    · revert h hmem
      cases hdd : cs.drop (cs.takeWhile isWordChar).length with
      | nil => intro h hmem; cases hmem
      | cons c2 cs2 =>
        intro h hmem
        have h2 : (if c2 = '.' then
            !(cs2.takeWhile isWordChar).isEmpty
              && (cs2.drop (cs2.takeWhile isWordChar).length).isEmpty
          else false) = true := h
        split_ifs at h2 with hc2d
        · subst hc2d
          simp only [Bool.and_eq_true, Bool.not_eq_true'] at h2
          rcases List.mem_cons.1 hmem with rfl | hmem2
          · exact Or.inr rfl
          · have hcs2 : cs2 = cs2.takeWhile isWordChar := by
              have hta := takeWhile_append_drop isWordChar cs2
              have hdn : cs2.drop (cs2.takeWhile isWordChar).length = [] := by
                rw [List.isEmpty_iff] at h2
                exact h2.2
              rw [hdn, List.append_nil] at hta
              exact hta.symm
            exact Or.inl (List.mem_takeWhile_imp (hcs2 ▸ hmem2))

lemma extMatch_no_slash {e : Str} (h : extMatch e = true) : ∀ c ∈ e, c ≠ '/' := by
  intro c hc
  rcases extMatch_chars h c hc with hw | hd
  · intro hcon
    rw [hcon] at hw
    cases hw
  · intro hcon
    rw [hcon] at hd
    cases hd

lemma strRepeat_single (c : Char) : ∀ n, strRepeat [c] n = List.replicate n c := by
  intro n
  induction n with
  | zero => rfl
  | succ n ih => rw [strRepeat, ih, List.replicate_succ]; rfl

lemma padDigits_coe (w : Nat) : padDigits (w : WithTop Nat) = natDigits w := by
  unfold padDigits
  rw [if_neg (by exact WithTop.coe_ne_top)]
  exact congrArg natDigits (WithTop.untop'_coe 0 w)

lemma natDigits_lt10 {n : Nat} (h : n < 10) : natDigits n = [Nat.digitChar n] := by
  unfold natDigits natDigitsF
  rw [if_pos h]

lemma initSeq_eq_token {p st : Str} {m : MatchData} (h1 : m.frame = []) (h2 : m.token ≠ []) :
    initSeq p st m = paddingSet (initState p st m) (numVal m.token : Nat) := by
  unfold initSeq
  rw [if_neg (by simp [h1]), if_pos (by simpa using h2)]

lemma initSeq_eq_padRun {p st : Str} {m : MatchData} (h1 : m.frame = []) (h2 : m.token = [])
    (h3 : m.padRun ≠ []) :
    initSeq p st m = paddingSet (initState p st m) (m.padRun.length : Nat) := by
  unfold initSeq
  rw [if_neg (by simp [h1]), if_neg (by simp [h2]), if_pos (by simpa using h3)]

lemma initSeq_eq_hip {p st : Str} {m : MatchData} (h1 : m.frame = []) (h2 : m.token = [])
    (h3 : m.padRun = []) (h4 : m.flame = []) (h5 : m.hipFrame ≠ []) :
    initSeq p st m = paddingSet (initState p st m)
      (if m.hipPadding.isEmpty then (1 : Nat) else (numVal m.hipPadding : Nat)) := by
  unfold initSeq
  rw [if_neg (by simp [h1]), if_neg (by simp [h2]), if_neg (by simp [h3]),
    if_neg (by simp [h4]), if_pos (by simpa using h5)]

lemma paddingSet_eq_of_ge {s : ImageSequence} {v : WithTop Nat} (h : ¬ v < 1) :
    paddingSet s v = createPaddingFormat { s with padding := v } := by
  unfold paddingSet
  rw [if_neg h]

lemma cpf_default {s : ImageSequence} (h1 : s.paddingStyle ≠ ImageSequence.BOOST)
    (h2 : s.paddingStyle ≠ ImageSequence.FLAME) (h3 : s.paddingStyle ≠ ImageSequence.HOUDINI_FF)
    (h4 : s.paddingStyle ≠ ImageSequence.HOUDINI) (h5 : s.paddingStyle ≠ ImageSequence.UDIM) :
    createPaddingFormat s = setFrameTok s ('.' :: strRepeat s.paddingStyle (s.padding.untop' 0)) := by
  unfold createPaddingFormat
  rw [if_neg h1, if_neg h2, if_neg h3, if_neg h4, if_neg h5]

lemma cpf_boost {s : ImageSequence} (h : s.paddingStyle = ImageSequence.BOOST) :
    createPaddingFormat s = setFrameTok s ('.' :: '%' :: '0' :: (padDigits s.padding ++ ['d'])) := by
  unfold createPaddingFormat
  rw [if_pos h]

lemma cpf_houdini {s : ImageSequence} (h : s.paddingStyle = ImageSequence.HOUDINI) :
    createPaddingFormat s = setFrameTok s ('.' :: '$' :: 'F' :: houdiniSuffix s.padding) := by
  unfold createPaddingFormat
  rw [h, if_neg (by decide), if_neg (by decide), if_neg (by decide), if_pos rfl]

lemma paddingStyleSet_padding (s : ImageSequence) (v : Str) :
    (paddingStyleSet s v).padding = s.padding := by
  unfold paddingStyleSet
  rw [createPaddingFormat_padding]

lemma paddingStyleSet_dirname (s : ImageSequence) (v : Str) :
    (paddingStyleSet s v).dirname = s.dirname := by
  unfold paddingStyleSet
  rw [createPaddingFormat_dirname]

lemma paddingStyleSet_name (s : ImageSequence) (v : Str) :
    (paddingStyleSet s v).data.name = s.data.name := by
  unfold paddingStyleSet
  rw [createPaddingFormat_name]

lemma paddingStyleSet_ext (s : ImageSequence) (v : Str) :
    (paddingStyleSet s v).data.ext = s.data.ext := by
  unfold paddingStyleSet
  rw [createPaddingFormat_ext]

lemma paddingStyleSet_style (s : ImageSequence) (v : Str) :
    (paddingStyleSet s v).paddingStyle = v := by
  unfold paddingStyleSet
  rw [createPaddingFormat_style]

lemma tryAltExt_cons (c : Char) (cs : Str) :
    tryAltExt (c :: cs)
      = (if c.isDigit then altNum (c :: cs)
         else if c = '%' then altPrintf cs
         else if c = '<' then altUdim (c :: cs)
         else if c = '[' then altFlame cs
         else if isPadChar c then altPad (c :: cs)
         else if c = '$' then altHou cs
         else none) := rfl

lemma matchRest_cons (n : Str) (c : Char) (t : Str) :
    matchRest n (c :: t)
      = (if c = '.' then
          match tryAltExt t with
          | some (g, r) => some (toMD n g r)
          | none => if extMatch (c :: t) = true then some (emptyMD n (c :: t)) else none
        else none) := rfl

lemma altPad_forward {c0 : Char} {W : Nat} {e : Str} (hc : isPadChar c0 = true)
    (he : extMatch e = true) :
    altPad (List.replicate W c0 ++ e) = some (.padRun (List.replicate W c0), e) := by
  obtain ⟨ecs, rfl⟩ := extMatch_head he
  unfold altPad
  have ht : (List.replicate W c0 ++ '.' :: ecs).takeWhile isPadChar = List.replicate W c0 :=
    takeWhile_append_stop ecs
      (fun c hcm => by rw [List.eq_of_mem_replicate hcm]; exact hc) (by decide)
  rw [ht, List.drop_left]
  unfold withExt
  rw [if_pos he]

lemma altPrintf_forward {W : Nat} {e : Str} (he : extMatch e = true) :
    altPrintf ('0' :: (natDigits W ++ 'd' :: e)) = some (.printf (natDigits W), e) := by
  have ht : (natDigits W ++ 'd' :: e).takeWhile Char.isDigit = natDigits W :=
    takeWhile_append_stop e (fun c hcm => natDigits_digits W c hcm) (by decide)
  rw [show altPrintf ('0' :: (natDigits W ++ 'd' :: e))
      = (if ((natDigits W ++ 'd' :: e).takeWhile Char.isDigit).isEmpty = true then none
         else
           match (natDigits W ++ 'd' :: e).drop
               ((natDigits W ++ 'd' :: e).takeWhile Char.isDigit).length with
           | [] => none
           | c3 :: r =>
             if c3 = 'd' then
               withExt (.printf ((natDigits W ++ 'd' :: e).takeWhile Char.isDigit)) r
             else none) from rfl]
  rw [ht, List.drop_left]
  simp [withExt, he, natDigits_ne_nil W]

lemma altHou_forward {W : Nat} {e : Str} (hW9 : W < 10) (he : extMatch e = true) :
    altHou ('F' :: Nat.digitChar W :: e) = some (.hou ['F'] [Nat.digitChar W], e) := by
  have hfd : isFChar (Nat.digitChar W) = false := by
    have hh : ∀ m < 10, isFChar (Nat.digitChar m) = false := by decide
    exact hh W hW9
  have ht : ('F' :: Nat.digitChar W :: e).takeWhile isFChar = ['F'] := by
    rw [List.takeWhile_cons, if_pos (by decide), List.takeWhile_cons, if_neg (by simp [hfd])]
  rw [show altHou ('F' :: Nat.digitChar W :: e)
      = (if (('F' :: Nat.digitChar W :: e).takeWhile isFChar).isEmpty = true then none
         else
           match ('F' :: Nat.digitChar W :: e).drop
               (('F' :: Nat.digitChar W :: e).takeWhile isFChar).length with
           | [] => none
           | d :: r =>
             if d.isDigit then withExt (.hou (('F' :: Nat.digitChar W :: e).takeWhile isFChar) [d]) r
             else withExt (.hou (('F' :: Nat.digitChar W :: e).takeWhile isFChar) []) (d :: r)) from rfl]
  rw [ht]
  simp [withExt, he, isDigit_digitChar W hW9]

/-- Outside the Flame style, the regenerated frame token depends only on
the padding style and the padding. -/
lemma cpf_frame_congr {s t : ImageSequence} (hsty : s.paddingStyle = t.paddingStyle)
    (hp : s.padding = t.padding) (hnf : t.paddingStyle ≠ ImageSequence.FLAME) :
    (createPaddingFormat s).data.frame = (createPaddingFormat t).data.frame := by
  unfold createPaddingFormat
  rw [hsty, hp]
  split_ifs with h1 h2 h3 h4 h5
  all_goals first
    | rfl
    | exact absurd (by assumption : t.paddingStyle = ImageSequence.FLAME) hnf

lemma pathOf_eq (x : ImageSequence) :
    pathOf x = osJoin x.dirname (x.data.name ++ x.data.frame ++ x.data.ext) := rfl

lemma matchFilename_reconstruct {n : Str} (hn : ValidName n) {body e : Str} {g : FrameG}
    (halt : tryAltExt (body ++ e) = some (g, e)) :
    matchFilename (n ++ ('.' :: body) ++ e) = some (toMD n g e) := by
  have hb : n ++ ('.' :: body) ++ e = n ++ '.' :: (body ++ e) := by simp
  rw [hb]
  unfold matchFilename
  rw [parseName_reconstruct hn (body ++ e)]
  show matchRest n ('.' :: (body ++ e)) = some (toMD n g e)
  rw [matchRest_cons, if_pos rfl, halt]

/-- Core of the round trip: when the restyled token re-parses through a
frame alternative to the same extension, and the selected constructor
branch restores the padding, the rendered path re-parses to a sequence with
the same padding and the same rendered path. -/
lemma c1_core {p st0 : Str} {s : ImageSequence} (hs : ImageSequence.new p st0 = some s)
    {S : Str} {W : Nat} (hW : 1 ≤ W) (hSnf : S ≠ ImageSequence.FLAME)
    {body : Str} {g : FrameG}
    (hfr : (paddingStyleSet (paddingSet s (W : Nat)) S).data.frame = '.' :: body)
    (hbodyns : ∀ c ∈ body, c ≠ '/')
    (halt : tryAltExt (body ++ s.data.ext) = some (g, s.data.ext))
    (hinit : ∀ p2 : Str, initSeq p2 S (toMD s.data.name g s.data.ext)
        = paddingSet (initState p2 S (toMD s.data.name g s.data.ext)) ((W : Nat) : WithTop Nat)) :
    ∃ s2, ImageSequence.new (pathOf (paddingStyleSet (paddingSet s (W : Nat)) S)) S = some s2
      ∧ s2.padding = ((W : Nat) : WithTop Nat)
      ∧ pathOf s2 = pathOf (paddingStyleSet (paddingSet s (W : Nat)) S) := by
  obtain ⟨hdd, hvn, hns, hext⟩ := new_shape hs
  have hWlt : ¬ ((W : Nat) : WithTop Nat) < 1 := by exact_mod_cast not_lt.2 hW
  have hs1d : (paddingStyleSet (paddingSet s (W : Nat)) S).dirname = s.dirname := by
    rw [paddingStyleSet_dirname, paddingSet_dirname]
  have hs1n : (paddingStyleSet (paddingSet s (W : Nat)) S).data.name = s.data.name := by
    rw [paddingStyleSet_name, paddingSet_name]
  have hs1e : (paddingStyleSet (paddingSet s (W : Nat)) S).data.ext = s.data.ext := by
    rw [paddingStyleSet_ext, paddingSet_ext]
  have hpath1 : pathOf (paddingStyleSet (paddingSet s (W : Nat)) S)
      = osJoin s.dirname (s.data.name ++ ('.' :: body) ++ s.data.ext) := by
    unfold pathOf basenameOf
    rw [hs1d, hs1n, hs1e, hfr]
  have hbns : ∀ c ∈ s.data.name ++ ('.' :: body) ++ s.data.ext, c ≠ '/' := by
    intro c hc
    rcases List.mem_append.1 hc with hc2 | hc2
    · rcases List.mem_append.1 hc2 with hc3 | hc3
      · exact hns c hc3
      · rcases List.mem_cons.1 hc3 with rfl | hc4
        · decide
        · exact hbodyns c hc4
    · exact extMatch_no_slash hext c hc2
  have hbhead : (s.data.name ++ ('.' :: body) ++ s.data.ext).head? ≠ some '/' := by
    cases hnn : s.data.name with
    | nil => exact absurd hnn (ValidName_ne_nil hvn)
    | cons c0 cs0 =>
      intro hcon
      simp only [hnn, List.cons_append, List.head?_cons, Option.some.injEq] at hcon
      exact hns c0 (hnn ▸ List.mem_cons_self c0 cs0) hcon
  have hdOK : dirOK s.dirname := by
    rw [hdd]
    exact osDirname_dirOK p
  have hjoin : osJoin s.dirname (s.data.name ++ ('.' :: body) ++ s.data.ext)
      = joinPref s.dirname ++ (s.data.name ++ ('.' :: body) ++ s.data.ext) :=
    osJoin_eq_joinPref hbhead
  have hbase : osBasename (pathOf (paddingStyleSet (paddingSet s (W : Nat)) S))
      = s.data.name ++ ('.' :: body) ++ s.data.ext := by
    rw [hpath1, hjoin]
    exact osBasename_join hbns
  have hdir2 : osDirname (pathOf (paddingStyleSet (paddingSet s (W : Nat)) S)) = s.dirname := by
    rw [hpath1, hjoin]
    exact osDirname_join hbns hdOK
  have hmf : matchFilename (osBasename (pathOf (paddingStyleSet (paddingSet s (W : Nat)) S)))
      = some (toMD s.data.name g s.data.ext) := by
    rw [hbase]
    exact matchFilename_reconstruct hvn halt
  refine ⟨initSeq (pathOf (paddingStyleSet (paddingSet s (W : Nat)) S)) S
      (toMD s.data.name g s.data.ext), ?_, ?_, ?_⟩
  · unfold ImageSequence.new
    rw [hmf]
  · rw [hinit, paddingSet_padding]
  · have hfr2 : (initSeq (pathOf (paddingStyleSet (paddingSet s (W : Nat)) S)) S
        (toMD s.data.name g s.data.ext)).data.frame = '.' :: body := by
      rw [hinit, paddingSet_eq_of_ge hWlt]
      rw [show (paddingStyleSet (paddingSet s (W : Nat)) S)
          = createPaddingFormat { paddingSet s (W : Nat) with paddingStyle := S } from rfl] at hfr
      rw [← hfr]
      apply cpf_frame_congr
      · rfl
      · show ((W : Nat) : WithTop Nat) = ({ paddingSet s (W : Nat) with paddingStyle := S}
          : ImageSequence).padding
        rw [show ({ paddingSet s (W : Nat) with paddingStyle := S} : ImageSequence).padding
            = (paddingSet s (W : Nat)).padding from rfl, paddingSet_padding]
      · exact hSnf
    rw [pathOf_eq (initSeq (pathOf (paddingStyleSet (paddingSet s (W : Nat)) S)) S
      (toMD s.data.name g s.data.ext))]
    rw [hfr2, initSeq_name, initSeq_ext, initSeq_dirname, toMD_name, toMD_ext, hdir2, hpath1]

lemma restyle_frame_default {s : ImageSequence} {W : Nat} {S : Str}
    (h1 : S ≠ ImageSequence.BOOST) (h2 : S ≠ ImageSequence.FLAME)
    (h3 : S ≠ ImageSequence.HOUDINI_FF) (h4 : S ≠ ImageSequence.HOUDINI)
    (h5 : S ≠ ImageSequence.UDIM) :
    (paddingStyleSet (paddingSet s ((W : Nat) : WithTop Nat)) S).data.frame
      = '.' :: strRepeat S W := by
  show (createPaddingFormat
      { paddingSet s ((W : Nat) : WithTop Nat) with paddingStyle := S }).data.frame
      = '.' :: strRepeat S W
  rw [cpf_default (by exact h1) (by exact h2) (by exact h3) (by exact h4) (by exact h5)]
  show '.' :: strRepeat S
      (({ paddingSet s ((W : Nat) : WithTop Nat) with paddingStyle := S }
        : ImageSequence).padding.untop' 0)
      = '.' :: strRepeat S W
  rw [show ({ paddingSet s ((W : Nat) : WithTop Nat) with paddingStyle := S }
      : ImageSequence).padding = (paddingSet s ((W : Nat) : WithTop Nat)).padding from rfl,
    paddingSet_padding]
  exact congrArg (fun n => '.' :: strRepeat S n) (WithTop.untop'_coe 0 W)

lemma restyle_frame_boost (s : ImageSequence) (W : Nat) :
    (paddingStyleSet (paddingSet s ((W : Nat) : WithTop Nat)) ImageSequence.BOOST).data.frame
      = '.' :: '%' :: '0' :: (natDigits W ++ ['d']) := by
  show (createPaddingFormat
      { paddingSet s ((W : Nat) : WithTop Nat) with
        paddingStyle := ImageSequence.BOOST }).data.frame = _
  rw [cpf_boost (by rfl)]
  show '.' :: '%' :: '0' :: (padDigits ({ paddingSet s ((W : Nat) : WithTop Nat) with
      paddingStyle := ImageSequence.BOOST } : ImageSequence).padding ++ ['d']) = _
  rw [show ({ paddingSet s ((W : Nat) : WithTop Nat) with
      paddingStyle := ImageSequence.BOOST } : ImageSequence).padding
      = (paddingSet s ((W : Nat) : WithTop Nat)).padding from rfl,
    paddingSet_padding, padDigits_coe]

lemma restyle_frame_houdini (s : ImageSequence) {W : Nat} (hW : 1 ≤ W) :
    (paddingStyleSet (paddingSet s ((W : Nat) : WithTop Nat)) ImageSequence.HOUDINI).data.frame
      = '.' :: '$' :: 'F' :: natDigits W := by
  show (createPaddingFormat
      { paddingSet s ((W : Nat) : WithTop Nat) with
        paddingStyle := ImageSequence.HOUDINI }).data.frame = _
  rw [cpf_houdini (by rfl)]
  show '.' :: '$' :: 'F' :: houdiniSuffix ({ paddingSet s ((W : Nat) : WithTop Nat) with
      paddingStyle := ImageSequence.HOUDINI } : ImageSequence).padding = _
  rw [show ({ paddingSet s ((W : Nat) : WithTop Nat) with
      paddingStyle := ImageSequence.HOUDINI } : ImageSequence).padding
      = (paddingSet s ((W : Nat) : WithTop Nat)).padding from rfl,
    paddingSet_padding]
  unfold houdiniSuffix
  rw [if_neg (by
    intro hcon
    have hz : W = 0 := by exact_mod_cast hcon
    omega)]
  exact congrArg (fun t => '.' :: '$' :: 'F' :: t) (padDigits_coe W)

lemma tryAltExt_pad {c : Char} {W : Nat} {e : Str} (hW : 1 ≤ W) (hc : isPadChar c = true)
    (he : extMatch e = true) :
    tryAltExt (List.replicate W c ++ e) = some (.padRun (List.replicate W c), e) := by
  obtain ⟨V, rfl⟩ : ∃ V, W = V + 1 := ⟨W - 1, (Nat.succ_pred_eq_of_pos hW).symm⟩
  have hrep : List.replicate (V + 1) c ++ e = c :: (List.replicate V c ++ e) := by
    rw [List.replicate_succ, List.cons_append]
  have hpad := altPad_forward (W := V + 1) hc he
  rw [hrep] at hpad
  rw [hrep, tryAltExt_cons]
  have hc2 : c = '#' ∨ c = '@' := by
    simpa [isPadChar, Bool.or_eq_true, decide_eq_true_eq] using hc
  rcases hc2 with rfl | rfl
  · rw [if_neg (by decide), if_neg (by decide), if_neg (by decide), if_neg (by decide),
      if_pos (by decide)]
    exact hpad
  · rw [if_neg (by decide), if_neg (by decide), if_neg (by decide), if_neg (by decide),
      if_pos (by decide)]
    exact hpad

lemma tryAltExt_boost {W : Nat} {e : Str} (he : extMatch e = true) :
    tryAltExt (('%' :: '0' :: (natDigits W ++ ['d'])) ++ e)
      = some (.printf (natDigits W), e) := by
  have h1 : ('%' :: '0' :: (natDigits W ++ ['d'])) ++ e
      = '%' :: ('0' :: (natDigits W ++ 'd' :: e)) := by
    simp
  rw [h1, tryAltExt_cons, if_neg (by decide), if_pos rfl]
  exact altPrintf_forward he

lemma tryAltExt_hou {W : Nat} (hW9 : W < 10) {e : Str} (he : extMatch e = true) :
    tryAltExt (('$' :: 'F' :: natDigits W) ++ e) = some (.hou ['F'] [Nat.digitChar W], e) := by
  rw [natDigits_lt10 hW9]
  show tryAltExt ('$' :: ('F' :: Nat.digitChar W :: e)) = _
  rw [tryAltExt_cons, if_neg (by decide), if_neg (by decide), if_neg (by decide),
    if_neg (by decide), if_neg (by decide), if_pos rfl]
  exact altHou_forward hW9 he

lemma initSeq_padRun_eq (p2 S n ext : Str) {W : Nat} (hW : 1 ≤ W) (c : Char) :
    initSeq p2 S (toMD n (.padRun (List.replicate W c)) ext)
      = paddingSet (initState p2 S (toMD n (.padRun (List.replicate W c)) ext))
          ((W : Nat) : WithTop Nat) := by
  rw [initSeq_eq_padRun rfl rfl (by
    show List.replicate W c ≠ []
    intro hcon
    have hlen := congrArg List.length hcon
    rw [List.length_replicate] at hlen
    simp only [List.length_nil] at hlen
    omega)]
  rw [show (toMD n (.padRun (List.replicate W c)) ext).padRun = List.replicate W c from rfl,
    List.length_replicate]

lemma initSeq_token_eq (p2 S n ext : Str) (W : Nat) :
    initSeq p2 S (toMD n (.printf (natDigits W)) ext)
      = paddingSet (initState p2 S (toMD n (.printf (natDigits W)) ext))
          ((W : Nat) : WithTop Nat) := by
  rw [initSeq_eq_token rfl (by
    show natDigits W ≠ []
    exact natDigits_ne_nil W)]
  rw [show (toMD n (.printf (natDigits W)) ext).token = natDigits W from rfl, numVal_natDigits]

lemma initSeq_hou_eq (p2 S n ext : Str) {W : Nat} (hW9 : W < 10) :
    initSeq p2 S (toMD n (.hou ['F'] [Nat.digitChar W]) ext)
      = paddingSet (initState p2 S (toMD n (.hou ['F'] [Nat.digitChar W]) ext))
          ((W : Nat) : WithTop Nat) := by
  rw [initSeq_eq_hip rfl rfl rfl rfl (by
    show ('$' :: (['F'] ++ [Nat.digitChar W])) ≠ []
    exact List.cons_ne_nil _ _)]
  rw [show (toMD n (.hou ['F'] [Nat.digitChar W]) ext).hipPadding = [Nat.digitChar W] from rfl]
  rw [if_neg (show ¬ ([Nat.digitChar W].isEmpty = true) from fun hcon => Bool.false_ne_true hcon)]
  rw [show numVal [Nat.digitChar W] = 0 + dval (Nat.digitChar W) from rfl, Nat.zero_add,
    dval_digitChar W hW9]

/-- C1 (amended): for a parsed sequence, any width W >= 1 and any style
among printf, hash, at-sign — plus Houdini when W <= 9 — setting the
padding to W and the style, rendering the path, and re-parsing it under
the same style yields a sequence whose padding is W and whose rendered
path is the original rendered path.  The self-declaring styles break the
round trip: UDIM re-parses to padding 4 whatever W was (see the
counterexample), Flame re-parses to the width of the start frame, and
Houdini-fractional re-parses to padding 1. -/
theorem c1_round_trip {p st0 : Str} {s : ImageSequence} (hs : ImageSequence.new p st0 = some s)
    {S : Str} {W : Nat} (hW : 1 ≤ W)
    (hS : S = ImageSequence.BOOST ∨ S = ImageSequence.HASH ∨ S = ImageSequence.AT_SIGN
      ∨ (S = ImageSequence.HOUDINI ∧ W < 10)) :
    ∃ s2, ImageSequence.new (pathOf (paddingStyleSet (paddingSet s ((W : Nat) : WithTop Nat)) S))
          S = some s2
      ∧ s2.padding = ((W : Nat) : WithTop Nat)
      ∧ pathOf s2 = pathOf (paddingStyleSet (paddingSet s ((W : Nat) : WithTop Nat)) S) := by
  obtain ⟨hdd, hvn, hns, hext⟩ := new_shape hs
  rcases hS with rfl | rfl | rfl | ⟨rfl, hW9⟩
  · have hb : ∀ c ∈ '%' :: '0' :: (natDigits W ++ ['d']), c ≠ '/' := by
      intro c hc
      rcases List.mem_cons.1 hc with rfl | hc
      · decide
      rcases List.mem_cons.1 hc with rfl | hc
      · decide
      rcases List.mem_append.1 hc with hc | hc
      · exact digit_ne (natDigits_digits W c hc) (by decide)
      · rw [List.mem_singleton] at hc
        subst hc
        decide
    exact c1_core hs hW (by decide) (restyle_frame_boost s W) hb
      (tryAltExt_boost hext)
      (fun p2 => initSeq_token_eq p2 ImageSequence.BOOST s.data.name s.data.ext W)
  · have hfr : (paddingStyleSet (paddingSet s ((W : Nat) : WithTop Nat))
        ImageSequence.HASH).data.frame = '.' :: List.replicate W '#' := by
      rw [restyle_frame_default (by decide) (by decide) (by decide) (by decide) (by decide)]
      rw [show ImageSequence.HASH = ['#'] from rfl, strRepeat_single]
    have hb : ∀ c ∈ List.replicate W '#', c ≠ '/' := by
      intro c hc
      rw [List.eq_of_mem_replicate hc]
      decide
    exact c1_core hs hW (by decide) hfr hb
      (tryAltExt_pad hW (by decide) hext)
      (fun p2 => initSeq_padRun_eq p2 ImageSequence.HASH s.data.name s.data.ext hW '#')
  · have hfr : (paddingStyleSet (paddingSet s ((W : Nat) : WithTop Nat))
        ImageSequence.AT_SIGN).data.frame = '.' :: List.replicate W '@' := by
      rw [restyle_frame_default (by decide) (by decide) (by decide) (by decide) (by decide)]
      rw [show ImageSequence.AT_SIGN = ['@'] from rfl, strRepeat_single]
    have hb : ∀ c ∈ List.replicate W '@', c ≠ '/' := by
      intro c hc
      rw [List.eq_of_mem_replicate hc]
      decide
    exact c1_core hs hW (by decide) hfr hb
      (tryAltExt_pad hW (by decide) hext)
      (fun p2 => initSeq_padRun_eq p2 ImageSequence.AT_SIGN s.data.name s.data.ext hW '@')
  · have hb : ∀ c ∈ '$' :: 'F' :: natDigits W, c ≠ '/' := by
      intro c hc
      rcases List.mem_cons.1 hc with rfl | hc
      · decide
      rcases List.mem_cons.1 hc with rfl | hc
      · decide
      exact digit_ne (natDigits_digits W c hc) (by decide)
    exact c1_core hs hW (by decide) (restyle_frame_houdini s hW) hb
      (tryAltExt_hou hW9 hext)
      (fun p2 => initSeq_hou_eq p2 ImageSequence.HOUDINI s.data.name s.data.ext hW9)

/-- C1 counterexample: file.1001.exr parsed, padding set to 2, style set to
UDIM; the rendered path re-parses under the UDIM style to padding 4, not 2,
so the round trip fails for the UDIM style. -/
theorem c1_counterexample :
    ImageSequence.new (strL "/mock/file.1001.exr") ImageSequence.HASH = some seqFile1001
    ∧ (ImageSequence.new
        (pathOf (paddingStyleSet (paddingSet seqFile1001 ((2 : Nat) : WithTop Nat))
          ImageSequence.UDIM)) ImageSequence.UDIM).map (fun s2 => s2.padding)
        = some ((4 : Nat) : WithTop Nat)
    ∧ ((4 : Nat) : WithTop Nat) ≠ ((2 : Nat) : WithTop Nat) :=
  ⟨by decide, by decide, by decide⟩

/-- C1 witness: the round trip at /mock/file.1001.exr, width 5, hash style. -/
theorem c1_round_trip_witness :
    ImageSequence.new (strL "/mock/file.1001.exr") ImageSequence.HASH = some seqFile1001
    ∧ 1 ≤ 5
    ∧ ∃ s2, ImageSequence.new
          (pathOf (paddingStyleSet (paddingSet seqFile1001 ((5 : Nat) : WithTop Nat))
            ImageSequence.HASH)) ImageSequence.HASH = some s2
      ∧ s2.padding = ((5 : Nat) : WithTop Nat)
      ∧ pathOf s2 = pathOf (paddingStyleSet (paddingSet seqFile1001 ((5 : Nat) : WithTop Nat))
          ImageSequence.HASH) :=
  ⟨by decide, by decide,
    c1_round_trip (show ImageSequence.new (strL "/mock/file.1001.exr") ImageSequence.HASH
        = some seqFile1001 by decide) (by decide) (Or.inr (Or.inl rfl))⟩
